import Mathlib

/-!
Verification of the trip-split ledger-balancing engine.

The engine under study is the pair of functions `calculateBalances` and
`resolveSettlements` from `src/app.js` (lines 392-489).  JavaScript numbers
are modelled as exact rationals together with an explicit `NaN` value
(`JVal`); JavaScript objects used as string-keyed dictionaries are modelled
as insertion-ordered association lists (`Obj`), matching the enumeration
order of `Object.keys` on such objects.  `Math.round x` is `⌊x + 1/2⌋`
(JavaScript rounds halves toward positive infinity).  Reading an absent key
yields `undefined`, which any arithmetic turns into `NaN`; `JVal.nan`
absorbs arithmetic exactly as JavaScript's `NaN` does, and all `NaN`
comparisons are false.

One deliberate modelling note: in `processExpense` the source computes
`split = expense.amount / expense.participants.length` before looping over
the participants.  When the participant list is empty JavaScript produces
`Infinity` here, while rational division by zero yields `0`; the value is
observationally irrelevant because the loop over an empty participant list
never reads `split`, so the two semantics agree on every result the
function can return.
-/

namespace TripSplit

/-- A JavaScript number: either an exact rational or `NaN`. -/
inductive JVal where
  | num (q : ℚ)
  | nan
deriving DecidableEq

/-- JavaScript `+` on numbers: `NaN` is absorbing. -/
def JVal.add : JVal → JVal → JVal
  | JVal.num a, JVal.num b => JVal.num (a + b)
  | _, _ => JVal.nan

/-- JavaScript `-` on numbers: `NaN` is absorbing. -/
def JVal.sub : JVal → JVal → JVal
  | JVal.num a, JVal.num b => JVal.num (a - b)
  | _, _ => JVal.nan

/-- Coercion of a property read to a number: an absent key reads as
`undefined`, and `undefined` used in arithmetic becomes `NaN`. -/
def jundef : Option JVal → JVal
  | some v => v
  | none => JVal.nan

/-- A JavaScript object used as a dictionary: entries in insertion order. -/
abbrev Obj := List (String × JVal)

/-- Property read `o[k]`: the entry for `k`, if any. -/
def jget {α : Type} (o : List (String × α)) (k : String) : Option α :=
  match o with
  | [] => none
  | kv :: rest => if kv.1 = k then some kv.2 else jget rest k

/-- Property write `o[k] = v`: overwrite in place, or append a new key. -/
def jset {α : Type} (o : List (String × α)) (k : String) (v : α) :
    List (String × α) :=
  match o with
  | [] => [(k, v)]
  | kv :: rest => if kv.1 = k then (k, v) :: rest else kv :: jset rest k v

/-- The key list of an object, in enumeration order (`Object.keys`). -/
def jkeys {α : Type} (o : List (String × α)) : List String :=
  o.map Prod.fst

/-- Well-formedness: a genuine JavaScript object never has duplicate keys. -/
def wfObj {α : Type} (o : List (String × α)) : Prop := (jkeys o).Nodup

instance {α : Type} (o : List (String × α)) : Decidable (wfObj o) := by
  unfold wfObj; infer_instance

/-- The spread copy `{...o}`: re-insert every entry into a fresh object. -/
def jspread (o : Obj) : Obj :=
  o.foldl (fun acc kv => jset acc kv.1 kv.2) []

/-- JavaScript `Math.round`: round to the nearest integer, halves toward
positive infinity. -/
def jsRound (q : ℚ) : ℤ := Rat.floor (q + 1/2)

/-- The engine's 2-decimal rounding `Math.round(x * 100) / 100`. -/
def round2 (q : ℚ) : ℚ := ((jsRound (q * 100) : ℤ) : ℚ) / 100

/-- The rounding pass applied to a stored balance; `NaN` stays `NaN`
(`Math.round(NaN) = NaN`). -/
def JVal.round2v : JVal → JVal
  | JVal.num q => JVal.num (round2 q)
  | JVal.nan => JVal.nan

/-- A person of a trip (`{id, name}`). -/
structure Person where
  id : String
  name : String
deriving DecidableEq

/-- An expense of a trip; fields irrelevant to the engine are omitted. -/
structure Expense where
  id : String
  title : String
  amount : ℚ
  paidBy : String
  participants : List String
deriving DecidableEq

/-- A trip: persons and expenses in insertion order. -/
structure Trip where
  id : String
  name : String
  persons : List Person
  expenses : List Expense
deriving DecidableEq

/-- A working entry of the settlement resolver (`{id, amount}`). -/
structure Party where
  id : String
  amount : ℚ
deriving DecidableEq

/-- An emitted transfer (`{from, to, amount}`). -/
structure Settlement where
  fromId : String
  toId : String
  amount : ℚ
deriving DecidableEq

/-- Balance initialisation of `calculateBalances`:
`trip.persons.forEach(p => { balances[p.id] = 0 })`. -/
def initBalances (persons : List Person) : Obj :=
  persons.foldl (fun balances person => jset balances person.id (JVal.num 0)) []

/-- One iteration of the expense loop of `calculateBalances`
(src/app.js lines 404-414): credit the payer with the full amount, then
debit each participant's share.  Absent keys read as `undefined` and the
update stores `NaN`, exactly as `balances[k] += v` does in JavaScript. -/
def processExpense (balances : Obj) (expense : Expense) : Obj :=
  let split : ℚ := expense.amount / (expense.participants.length : ℚ)
  let credited : Obj :=
    jset balances expense.paidBy
      ((jundef (jget balances expense.paidBy)).add (JVal.num expense.amount))
  expense.participants.foldl
    (fun b participantId =>
      jset b participantId
        ((jundef (jget b participantId)).sub (JVal.num split)))
    credited

/-- `calculateBalances(trip)` (src/app.js lines 392-422).  The guard
`!trip || !trip.persons || trip.persons.length === 0` collapses, for a trip
value, to the empty-persons check.  The final `Object.keys` pass that
rounds every entry is the entry-wise map `JVal.round2v`. -/
def calculateBalances (trip : Trip) : Obj :=
  if trip.persons.length = 0 then []
  else
    ((trip.expenses.foldl processExpense (initBalances trip.persons)).map
      (fun kv => (kv.1, kv.2.round2v)))

/-- One step of the classification loop of `resolveSettlements`
(src/app.js lines 447-454): push onto the creditor list when the balance
exceeds `0.01`, onto the debtor list (with `Math.abs`) when it is below
`-0.01`.  All comparisons with `NaN` are false, so a `NaN` balance is
skipped. -/
def classifyStep (working : Obj) (cd : List Party × List Party)
    (personId : String) : List Party × List Party :=
  match jundef (jget working personId) with
  | JVal.num balance =>
      if balance > (0.01 : ℚ) then (cd.1 ++ [⟨personId, balance⟩], cd.2)
      else if balance < -(0.01 : ℚ) then (cd.1, cd.2 ++ [⟨personId, |balance|⟩])
      else cd
  | JVal.nan => cd

/-- The classification pass over `Object.keys(workingBalances)`. -/
def classify (working : Obj) : List Party × List Party :=
  (jkeys working).foldl (classifyStep working) ([], [])

/-- The creditor entry a stored balance contributes: one `{id, amount}`
record when the value is numeric and strictly above `0.01`. -/
def creditorPick (kv : String × JVal) : Option Party :=
  match kv.2 with
  | JVal.num q => if q > (0.01 : ℚ) then some ⟨kv.1, q⟩ else none
  | JVal.nan => none

/-- The debtor entry a stored balance contributes: one `{id, amount}`
record (with the absolute value) when the value is numeric and strictly
below `-0.01`. -/
def debtorPick (kv : String × JVal) : Option Party :=
  match kv.2 with
  | JVal.num q =>
      if q > (0.01 : ℚ) then none
      else if q < -(0.01 : ℚ) then some ⟨kv.1, |q|⟩ else none
  | JVal.nan => none

/-- The creditor list the classification pass produces, in closed form:
one entry per stored numeric balance strictly above `0.01`, in object
order. -/
def creditorsOf (working : Obj) : List Party :=
  working.filterMap creditorPick

/-- The debtor list the classification pass produces, in closed form: one
entry (with the absolute value) per stored numeric balance strictly below
`-0.01`, in object order. -/
def debtorsOf (working : Obj) : List Party :=
  working.filterMap debtorPick

/-- `list.sort((a, b) => b.amount - a.amount)`: a stable sort putting
larger amounts first. -/
def sortParties (l : List Party) : List Party :=
  l.mergeSort (fun a b => b.amount ≤ a.amount)

/-- The settlement matching loop (src/app.js lines 461-486).  Heads of the
two lists are paired with `payment = min(creditor.amount, debtor.amount)`;
a settlement is recorded only when `payment > 0.01`; both heads are
decremented and a head whose remainder drops below `0.01` is removed.  The
loop terminates because the `min` side's remainder becomes `0 < 0.01`, so
every iteration removes at least one party. -/
def resolveLoop : List Party → List Party → List Settlement
  | [], _ => []
  | _ :: _, [] => []
  | creditor :: cs, debtor :: ds =>
      let payment := min creditor.amount debtor.amount
      let nextCreditors :=
        if creditor.amount - payment < (0.01 : ℚ) then cs
        else { creditor with amount := creditor.amount - payment } :: cs
      let nextDebtors :=
        if debtor.amount - payment < (0.01 : ℚ) then ds
        else { debtor with amount := debtor.amount - payment } :: ds
      let rest := resolveLoop nextCreditors nextDebtors
      if payment > (0.01 : ℚ) then
        ⟨debtor.id, creditor.id, round2 payment⟩ :: rest
      else rest
termination_by cs ds => cs.length + ds.length
decreasing_by
  have hmin : creditor.amount - min creditor.amount debtor.amount = 0 ∨
      debtor.amount - min creditor.amount debtor.amount = 0 := by
    rcases min_choice creditor.amount debtor.amount with h | h
    · left; rw [h]; ring
    · right; rw [h]; ring
  split_ifs with h1 h2 h3
  all_goals simp only [List.length_cons]
  all_goals try omega
  exfalso
  rcases hmin with h | h
  · exact h1 (by rw [h]; norm_num)
  · exact h3 (by rw [h]; norm_num)

/-- The fuel-indexed version of the matching loop, used to state
termination: enough fuel makes it agree with `resolveLoop`. -/
def resolveLoopFuel : Nat → List Party → List Party → List Settlement
  | 0, _, _ => []
  | _ + 1, [], _ => []
  | _ + 1, _ :: _, [] => []
  | fuel + 1, creditor :: cs, debtor :: ds =>
      let payment := min creditor.amount debtor.amount
      let nextCreditors :=
        if creditor.amount - payment < (0.01 : ℚ) then cs
        else { creditor with amount := creditor.amount - payment } :: cs
      let nextDebtors :=
        if debtor.amount - payment < (0.01 : ℚ) then ds
        else { debtor with amount := debtor.amount - payment } :: ds
      let rest := resolveLoopFuel fuel nextCreditors nextDebtors
      if payment > (0.01 : ℚ) then
        ⟨debtor.id, creditor.id, round2 payment⟩ :: rest
      else rest

/-- `resolveSettlements(balances, persons)` (src/app.js lines 431-489).
The `personMap` of ids to names is built but never used afterwards (dead
code in the source); `workingBalances` is the spread copy `{...balances}`;
classification, the two descending sorts and the matching loop follow. -/
def resolveSettlements (balances : Obj) (persons : List Person) :
    List Settlement :=
  let _personMap : List (String × String) :=
    persons.foldl (fun m person => jset m person.id person.name) []
  let workingBalances := jspread balances
  let cd := classify workingBalances
  let creditors := sortParties cd.1
  let debtors := sortParties cd.2
  resolveLoop creditors debtors

/-- `resolveSettlements` together with the post-call state of the
`balances` argument.  Every write the source performs targets either the
spread copy's derived `{id, amount}` records or the local `settlements`
array; no statement assigns through `balances`, so the object the caller
passed is returned unchanged. -/
def resolveSettlementsSt (balances : Obj) (persons : List Person) :
    List Settlement × Obj :=
  (resolveSettlements balances persons, balances)

/-- Modelled from the spec: applying one settlement the way claim C2
words it — "subtracting its amount from the `from` person's balance and
adding it to the `to` person's balance". -/
def applyOneClaim (balances : Obj) (s : Settlement) : Obj :=
  let b1 :=
    jset balances s.fromId
      ((jundef (jget balances s.fromId)).sub (JVal.num s.amount))
  jset b1 s.toId ((jundef (jget b1 s.toId)).add (JVal.num s.amount))

/-- Modelled from the spec: applying a settlement list in the claim's
wording, in order. -/
def applySettlementsClaim (settlements : List Settlement) (balances : Obj) :
    Obj :=
  settlements.foldl applyOneClaim balances

/-- Modelled from the spec: applying one settlement in the discharging
direction — the debtor `from` pays, so their (negative) balance increases
by the amount, and the creditor `to` is paid, so their (positive) balance
decreases by it. -/
def applyOne (balances : Obj) (s : Settlement) : Obj :=
  let b1 :=
    jset balances s.fromId
      ((jundef (jget balances s.fromId)).add (JVal.num s.amount))
  jset b1 s.toId ((jundef (jget b1 s.toId)).sub (JVal.num s.amount))

/-- Modelled from the spec: applying a settlement list in the discharging
direction, in order. -/
def applySettlements (settlements : List Settlement) (balances : Obj) :
    Obj :=
  settlements.foldl applyOne balances

/-- The net effect of one expense on one person's pre-rounding balance:
the full amount if they paid, minus one share per occurrence in the
participant list. -/
def expenseTerm (e : Expense) (personId : String) : ℚ :=
  (if e.paidBy = personId then e.amount else 0)
    - (e.participants.count personId : ℚ)
        * (e.amount / (e.participants.length : ℚ))

/-- The pre-rounding balance contributed by a list of expenses. -/
def rawBalanceList (es : List Expense) (personId : String) : ℚ :=
  (es.map (fun e => expenseTerm e personId)).sum

/-- The closed-form per-person balance before rounding: each expense
credits its full amount to the payer and debits one share per occurrence
in the participant list. -/
def rawBalance (trip : Trip) (personId : String) : ℚ :=
  rawBalanceList trip.expenses personId

/-- No stored value is `NaN`. -/
def allNum (o : Obj) : Prop := ∀ kv ∈ o, kv.2 ≠ JVal.nan

/-- Modelled from the spec: the balance mapping described by claim C5 —
every person of the trip starts at 0, expenses credit the payer and debit
each participant's share, and a final rounding `rnd` is applied. -/
def specBalancesWith (rnd : ℚ → ℚ) (trip : Trip) : Obj :=
  trip.persons.map (fun person =>
    (person.id, JVal.num (rnd (rawBalance trip person.id))))

/-- Modelled from the spec: round-half-away-from-zero at scale 100. -/
def roundHalfAway (q : ℚ) : ℚ :=
  ((if 0 ≤ q then Rat.floor (q * 100 + 1/2)
    else -(Rat.floor (-(q * 100) + 1/2)) : ℤ) : ℚ) / 100

/-- Modelled from the spec: round-half-to-even at scale 100. -/
def roundHalfEven (q : ℚ) : ℚ :=
  let s := q * 100
  let f := Rat.floor s
  let n : ℤ :=
    if s - (f : ℚ) < 1/2 then f
    else if (1 : ℚ)/2 < s - (f : ℚ) then f + 1
    else if 2 ∣ f then f else f + 1
  (n : ℚ) / 100

/-- The rational reading of a stored balance, for summation; `NaN` never
occurs where this is used with meaning. -/
def qOf : JVal → ℚ
  | JVal.num q => q
  | JVal.nan => 0

/-- The sum of the values of a balance mapping. -/
def sumValues (o : Obj) : ℚ := (o.map (fun kv => qOf kv.2)).sum

/-- The total amount a settlement list sends to `personId`. -/
def paidTo (personId : String) (settlements : List Settlement) : ℚ :=
  ((settlements.filter (fun s => s.toId = personId)).map
    Settlement.amount).sum

/-- The total amount a settlement list collects from `personId`. -/
def paidFrom (personId : String) (settlements : List Settlement) : ℚ :=
  ((settlements.filter (fun s => s.fromId = personId)).map
    Settlement.amount).sum

/-- A stored value that is a whole number of cents. -/
def centVal : JVal → Prop
  | JVal.num q => (q * 100).den = 1
  | JVal.nan => False

instance (v : JVal) : Decidable (centVal v) := by
  cases v <;> unfold centVal <;> infer_instance

/-- Every value of the mapping is a whole number of cents, as
`calculateBalances` produces. -/
def centMult (o : Obj) : Prop := ∀ kv ∈ o, centVal kv.2

instance (o : Obj) : Decidable (centMult o) := by
  unfold centMult; infer_instance

/-- A rational that is a whole number of cents. -/
def centQ (q : ℚ) : Prop := (q * 100).den = 1

instance (q : ℚ) : Decidable (centQ q) := by
  unfold centQ; infer_instance

/-- Person ids of a trip are distinct (identity is by id). -/
def Trip.wfPersons (t : Trip) : Prop := (t.persons.map Person.id).Nodup

instance (t : Trip) : Decidable t.wfPersons := by
  unfold Trip.wfPersons; infer_instance

/-- Every expense references only persons of the trip. -/
def Trip.validRefs (t : Trip) : Prop :=
  ∀ e ∈ t.expenses,
    e.paidBy ∈ t.persons.map Person.id ∧
      ∀ p ∈ e.participants, p ∈ t.persons.map Person.id

instance (t : Trip) : Decidable t.validRefs := by
  unfold Trip.validRefs; infer_instance

/-- Every expense has a non-empty participant list. -/
def Trip.nonEmptyParts (t : Trip) : Prop :=
  ∀ e ∈ t.expenses, e.participants ≠ []

instance (t : Trip) : Decidable t.nonEmptyParts := by
  unfold Trip.nonEmptyParts; infer_instance

/-- The expenses of a trip whose participant list is non-empty. -/
def Trip.filterNonEmpty (t : Trip) : Trip :=
  { t with expenses := t.expenses.filter (fun e => !e.participants.isEmpty) }

/-- The total credited to `personId` by the empty-participant expenses. -/
def emptyCredit (t : Trip) (personId : String) : ℚ :=
  ((t.expenses.filter (fun e => e.participants.isEmpty)).map
    (fun e => if e.paidBy = personId then e.amount else 0)).sum

/-- A trip whose per-person rounding drift adds up: X fronts three
one-cent expenses; the six one-third shares all round to zero while X's
credit and Y's debit survive rounding. -/
def tripDrift : Trip :=
  { id := "t1", name := "drift"
    persons :=
      [⟨"X", "X"⟩, ⟨"Y", "Y"⟩, ⟨"A", "A"⟩, ⟨"B", "B"⟩, ⟨"C", "C"⟩,
        ⟨"D", "D"⟩, ⟨"E", "E"⟩, ⟨"F", "F"⟩]
    expenses :=
      [⟨"e1", "e1", 0.01, "X", ["A", "B", "C"]⟩,
        ⟨"e2", "e2", 0.01, "X", ["D", "E", "F"]⟩,
        ⟨"e3", "e3", 0.01, "X", ["Y"]⟩] }

/-- A trip containing an expense with an empty participant list. -/
def tripEmpty : Trip :=
  { id := "t2", name := "empty"
    persons := [⟨"A", "A"⟩, ⟨"B", "B"⟩]
    expenses :=
      [⟨"e1", "e1", 5, "A", []⟩,
        ⟨"e2", "e2", 2, "B", ["A"]⟩] }

/-- A trip producing a balance of exactly minus three eighths, whose
hundredfold is the exact half `-37.5`. -/
def tripHalf : Trip :=
  { id := "t3", name := "half"
    persons := [⟨"A", "A"⟩, ⟨"B", "B"⟩, ⟨"C", "C"⟩]
    expenses := [⟨"e1", "e1", 3/4, "A", ["B", "C"]⟩] }

/-- A trip whose only expense is paid by an id that belongs to no person. -/
def tripGhost : Trip :=
  { id := "t4", name := "ghost"
    persons := [⟨"A", "A"⟩]
    expenses := [⟨"e1", "e1", 5, "G", ["A"]⟩] }

/-- The reference scenario of the spec: A fronts 300 for everyone, B
fronts 300 for B and C. -/
def tripScenario : Trip :=
  { id := "t5", name := "scenario"
    persons := [⟨"A", "A"⟩, ⟨"B", "B"⟩, ⟨"C", "C"⟩]
    expenses :=
      [⟨"e1", "e1", 300, "A", ["A", "B", "C"]⟩,
        ⟨"e2", "e2", 300, "B", ["B", "C"]⟩] }

/-- A balance mapping with values that are not whole cents: 0.014 is above
the classification threshold but rounds down to exactly 0.01. -/
def balFrac : Obj := [("X", JVal.num (7/500)), ("Y", JVal.num (-(7/500)))]

/-- A whole-cent balance mapping with one creditor and one debtor. -/
def balCent : Obj := [("X", JVal.num (5/100)), ("Y", JVal.num (-(5/100)))]

/-- A large whole-cent balance mapping with one creditor and one debtor. -/
def balBig : Obj := [("X", JVal.num 5), ("Y", JVal.num (-5))]

/-! ## Rounding lemmas -/

theorem jsRound_eq_floor (q : ℚ) : jsRound q = ⌊q + 1/2⌋ := by
  rw [jsRound, Rat.floor_def, Rat.floor_def']

theorem round2_eq_of (q : ℚ) (z : ℤ) (h1 : (z : ℚ) ≤ q * 100 + 1/2)
    (h2 : q * 100 + 1/2 < z + 1) : round2 q = (z : ℚ) / 100 := by
  rw [round2, jsRound_eq_floor, Int.floor_eq_iff.mpr ⟨h1, h2⟩]

theorem abs_round2_sub_le (q : ℚ) : |round2 q - q| ≤ 1/200 := by
  rw [round2, jsRound_eq_floor]
  have h1 : ((⌊q * 100 + 1/2⌋ : ℤ) : ℚ) ≤ q * 100 + 1/2 := Int.floor_le _
  have h2 : q * 100 + 1/2 - 1 < ((⌊q * 100 + 1/2⌋ : ℤ) : ℚ) :=
    Int.sub_one_lt_floor _
  rw [abs_le]
  constructor <;> linarith

theorem centQ_iff (q : ℚ) : centQ q ↔ ∃ z : ℤ, q = (z : ℚ) / 100 := by
  constructor
  · intro h
    refine ⟨(q * 100).num, ?_⟩
    have := (Rat.den_eq_one_iff (q * 100)).mp h
    field_simp
    linarith [this]
  · rintro ⟨z, rfl⟩
    have : (z : ℚ) / 100 * 100 = (z : ℚ) := by field_simp
    rw [centQ, this, Rat.den_intCast]

theorem round2_of_centQ {q : ℚ} (h : centQ q) : round2 q = q := by
  obtain ⟨z, rfl⟩ := (centQ_iff q).mp h
  have key : ((z : ℚ) / 100) * 100 = (z : ℚ) := by field_simp
  rw [round2_eq_of _ z (by rw [key]; linarith) (by rw [key]; linarith)]

theorem centQ_sub {a b : ℚ} (ha : centQ a) (hb : centQ b) : centQ (a - b) := by
  obtain ⟨x, rfl⟩ := (centQ_iff a).mp ha
  obtain ⟨y, rfl⟩ := (centQ_iff b).mp hb
  exact (centQ_iff _).mpr ⟨x - y, by push_cast; ring⟩

theorem centQ_min {a b : ℚ} (ha : centQ a) (hb : centQ b) : centQ (min a b) := by
  rcases min_choice a b with h | h <;> rw [h] <;> assumption

theorem centQ_abs {a : ℚ} (ha : centQ a) : centQ |a| := by
  rcases abs_choice a with h | h <;> rw [h]
  · exact ha
  · obtain ⟨x, rfl⟩ := (centQ_iff a).mp ha
    exact (centQ_iff _).mpr ⟨-x, by push_cast; ring⟩

theorem centQ_two_le {q : ℚ} (hc : centQ q) (h : (0.01 : ℚ) < q) :
    2/100 ≤ q := by
  obtain ⟨z, rfl⟩ := (centQ_iff q).mp hc
  have hz : (1 : ℚ) < z := by
    rw [lt_div_iff₀ (by norm_num : (0:ℚ) < 100)] at h
    norm_num at h
    exact_mod_cast h
  have : (2 : ℤ) ≤ z := by exact_mod_cast hz
  rw [div_le_div_iff_of_pos_right (by norm_num : (0:ℚ) < 100)]
  exact_mod_cast this

/-! ## Object lemmas -/

theorem jget_jset_self {α : Type} (o : List (String × α)) (k : String)
    (v : α) : jget (jset o k v) k = some v := by
  induction o with
  | nil => simp [jget, jset]
  | cons kv rest ih =>
      by_cases h : kv.1 = k <;> simp [jget, jset, h, ih]

theorem jget_jset_of_ne {α : Type} (o : List (String × α)) {k k2 : String}
    (v : α) (h : k ≠ k2) : jget (jset o k v) k2 = jget o k2 := by
  induction o with
  | nil => simp [jget, jset, h]
  | cons kv rest ih =>
      by_cases hk : kv.1 = k
      · simp [jget, jset, hk, h]
      · simp only [jset, hk, if_false, jget]
        by_cases hk2 : kv.1 = k2 <;> simp [hk2, ih]

theorem jkeys_cons {α : Type} (kv : String × α) (rest : List (String × α)) :
    jkeys (kv :: rest) = kv.1 :: jkeys rest := rfl

theorem mem_jkeys {α : Type} {o : List (String × α)} {k : String} :
    k ∈ jkeys o ↔ ∃ v, (k, v) ∈ o := by
  constructor
  · intro h
    obtain ⟨⟨a, b⟩, hab, hk⟩ := List.mem_map.mp h
    exact ⟨b, by simpa [← hk] using hab⟩
  · rintro ⟨v, hv⟩
    rw [jkeys]
    exact List.mem_map_of_mem Prod.fst hv

theorem wf_cons {α : Type} {kv : String × α} {rest : List (String × α)}
    (h : wfObj (kv :: rest)) : wfObj rest :=
  (List.nodup_cons.mp h).2

theorem wf_head_not_mem {α : Type} {kv : String × α}
    {rest : List (String × α)} (h : wfObj (kv :: rest)) :
    kv.1 ∉ jkeys rest :=
  (List.nodup_cons.mp h).1

theorem jkeys_jset_of_mem {α : Type} {o : List (String × α)} {k : String}
    (v : α) (h : k ∈ jkeys o) : jkeys (jset o k v) = jkeys o := by
  induction o with
  | nil => simp [jkeys] at h
  | cons kv rest ih =>
      by_cases hk : kv.1 = k
      · simp [jkeys, jset, hk]
      · have hr : k ∈ jkeys rest := by
          rcases List.mem_cons.mp (by simpa [jkeys_cons] using h) with h1 | h1
          · exact absurd h1.symm hk
          · exact h1
        simp only [jset, hk, if_false, jkeys_cons, ih hr]

theorem jset_of_not_mem {α : Type} {o : List (String × α)} {k : String}
    (v : α) (h : k ∉ jkeys o) : jset o k v = o ++ [(k, v)] := by
  induction o with
  | nil => simp [jset]
  | cons kv rest ih =>
      rw [jkeys_cons, List.mem_cons] at h
      push_neg at h
      have hne : ¬ kv.1 = k := fun hh => h.1 hh.symm
      simp only [jset, if_neg hne, List.cons_append]
      rw [ih h.2]

theorem jget_eq_none_of_not_mem {α : Type} {o : List (String × α)}
    {k : String} (h : k ∉ jkeys o) : jget o k = none := by
  induction o with
  | nil => rfl
  | cons kv rest ih =>
      rw [jkeys_cons, List.mem_cons] at h
      push_neg at h
      have hne : ¬ kv.1 = k := fun hh => h.1 hh.symm
      simp only [jget, if_neg hne]
      exact ih h.2

theorem mem_of_jget {α : Type} {o : List (String × α)} {k : String} {v : α}
    (h : jget o k = some v) : (k, v) ∈ o := by
  induction o with
  | nil => simp [jget] at h
  | cons kv rest ih =>
      by_cases hk : kv.1 = k
      · simp [jget, hk] at h
        simp [← hk, ← h]
      · simp [jget, hk] at h
        exact List.mem_cons_of_mem _ (ih h)

theorem jget_eq_of_mem {α : Type} {o : List (String × α)} {k : String}
    {v : α} (hwf : wfObj o) (h : (k, v) ∈ o) : jget o k = some v := by
  induction o with
  | nil => simp at h
  | cons kv rest ih =>
      rcases List.mem_cons.mp h with h1 | h1
      · simp [jget, ← h1]
      · have hk : kv.1 ≠ k := by
          intro hh
          exact wf_head_not_mem hwf (mem_jkeys.mpr ⟨v, hh ▸ h1⟩)
        simp only [jget, hk, if_false]
        exact ih (wf_cons hwf) h1

theorem jget_cons_of_ne {α : Type} {kv : String × α}
    {rest : List (String × α)} {k : String} (h : kv.1 ≠ k) :
    jget (kv :: rest) k = jget rest k := by
  simp [jget, h]

theorem wf_jset {α : Type} {o : List (String × α)} (k : String) (v : α)
    (hwf : wfObj o) : wfObj (jset o k v) := by
  by_cases h : k ∈ jkeys o
  · rw [wfObj, jkeys_jset_of_mem v h]; exact hwf
  · rw [jset_of_not_mem v h, wfObj, jkeys, List.map_append]
    rw [List.nodup_append]
    refine ⟨hwf, by simp, ?_⟩
    intro a ha
    simp only [List.map_cons, List.map_nil, List.mem_singleton]
    intro hh
    exact h (hh ▸ ha)

theorem foldl_jset_disjoint (o : Obj) : ∀ acc : Obj, wfObj o →
    (∀ k ∈ jkeys o, k ∉ jkeys acc) →
    o.foldl (fun a kv => jset a kv.1 kv.2) acc = acc ++ o := by
  induction o with
  | nil => intro acc _ _; simp
  | cons kv rest ih =>
      intro acc hwf hdisj
      have hk : kv.1 ∉ jkeys acc := hdisj kv.1 (by simp [jkeys_cons])
      rw [List.foldl_cons, jset_of_not_mem _ hk,
        ih (acc ++ [(kv.1, kv.2)]) (wf_cons hwf) ?_]
      · simp
      · intro k hkr
        rw [jkeys, List.map_append, List.mem_append]
        push_neg
        refine ⟨hdisj k (by rw [jkeys_cons]; exact List.mem_cons_of_mem _ hkr), ?_⟩
        simp only [List.map_cons, List.map_nil, List.mem_singleton]
        intro hh
        exact wf_head_not_mem hwf (hh ▸ hkr)

theorem jspread_of_wf {o : Obj} (hwf : wfObj o) : jspread o = o := by
  rw [jspread, foldl_jset_disjoint o [] hwf (by simp [jkeys])]
  simp

theorem mem_jset {α : Type} {o : List (String × α)} {k : String} {v : α}
    {kv : String × α} (h : kv ∈ jset o k v) : kv = (k, v) ∨ kv ∈ o := by
  induction o with
  | nil =>
      simp only [jset, List.mem_singleton] at h
      exact Or.inl h
  | cons kv0 rest ih =>
      by_cases hk : kv0.1 = k
      · simp only [jset, if_pos hk, List.mem_cons] at h
        rcases h with h | h
        · exact Or.inl h
        · exact Or.inr (List.mem_cons_of_mem _ h)
      · simp only [jset, if_neg hk, List.mem_cons] at h
        rcases h with h | h
        · exact Or.inr (List.mem_cons.mpr (Or.inl h))
        · rcases ih h with h1 | h1
          · exact Or.inl h1
          · exact Or.inr (List.mem_cons_of_mem _ h1)

/-! ## Balance-calculator lemmas -/

theorem jget_of_mem_jkeys {α : Type} {o : List (String × α)} {k : String}
    (hwf : wfObj o) (h : k ∈ jkeys o) : ∃ v, jget o k = some v := by
  obtain ⟨v, hv⟩ := mem_jkeys.mp h
  exact ⟨v, jget_eq_of_mem hwf hv⟩

theorem allNum_val {o : Obj} {k : String} {v : JVal} (hnum : allNum o)
    (h : jget o k = some v) : ∃ q : ℚ, v = JVal.num q := by
  have hv := hnum _ (mem_of_jget h)
  cases v with
  | num q => exact ⟨q, rfl⟩
  | nan => exact absurd rfl hv

theorem allNum_jset {o : Obj} (k : String) (v : JVal) (hnum : allNum o)
    (hv : v ≠ JVal.nan) : allNum (jset o k v) := by
  intro kv hkv
  rcases mem_jset hkv with h | h
  · rw [h]; exact hv
  · exact hnum _ h

theorem jget_debit_fold (split : ℚ) :
    ∀ (ps : List String) (b : Obj) (k : String) (q : ℚ),
      wfObj b → allNum b → (∀ p ∈ ps, p ∈ jkeys b) →
      jget b k = some (JVal.num q) →
      jget (ps.foldl (fun bb participantId =>
          jset bb participantId
            ((jundef (jget bb participantId)).sub (JVal.num split))) b) k
        = some (JVal.num (q - (ps.count k : ℚ) * split)) := by
  intro ps
  induction ps with
  | nil =>
      intro b k q _ _ _ hk
      simp only [List.foldl_nil, List.count_nil, Nat.cast_zero, zero_mul,
        sub_zero]
      exact hk
  | cons p ps ih =>
      intro b k q hwf hnum hmem hk
      obtain ⟨vp, hvp⟩ :=
        jget_of_mem_jkeys hwf (hmem p (List.mem_cons_self p ps))
      obtain ⟨qp, rfl⟩ := allNum_val hnum hvp
      have hstep :
          jset b p ((jundef (jget b p)).sub (JVal.num split))
            = jset b p (JVal.num (qp - split)) := by
        rw [hvp]; rfl
      rw [List.foldl_cons, hstep]
      have hpk : p ∈ jkeys b := hmem p (List.mem_cons_self p ps)
      have hkeys : jkeys (jset b p (JVal.num (qp - split))) = jkeys b :=
        jkeys_jset_of_mem _ hpk
      have hwf2 := wf_jset p (JVal.num (qp - split)) hwf
      have hnum2 := allNum_jset p (JVal.num (qp - split)) hnum (by simp)
      by_cases hpkk : p = k
      · subst hpkk
        have hq : qp = q := by rw [hvp] at hk; injection hk with h; injection h
        subst hq
        have := ih (jset b p (JVal.num (qp - split))) p (qp - split) hwf2
          hnum2 (fun x hx => hkeys ▸ hmem x (List.mem_cons_of_mem _ hx))
          (jget_jset_self b p _)
        rw [this]
        congr 2
        rw [List.count_cons]
        simp only [beq_self_eq_true, if_true]
        push_cast
        ring
      · have hget2 : jget (jset b p (JVal.num (qp - split))) k
            = some (JVal.num q) := by
          rw [jget_jset_of_ne b _ hpkk]; exact hk
        have := ih (jset b p (JVal.num (qp - split))) k q hwf2 hnum2
          (fun x hx => hkeys ▸ hmem x (List.mem_cons_of_mem _ hx)) hget2
        rw [this]
        congr 2
        rw [List.count_cons]
        have hbeq : (p == k) = false := beq_eq_false_iff_ne.mpr hpkk
        rw [hbeq]
        simp

theorem debit_fold_preserves (split : ℚ) :
    ∀ (ps : List String) (b : Obj),
      wfObj b → allNum b → (∀ p ∈ ps, p ∈ jkeys b) →
      jkeys (ps.foldl (fun bb participantId =>
          jset bb participantId
            ((jundef (jget bb participantId)).sub (JVal.num split))) b)
          = jkeys b ∧
        wfObj (ps.foldl (fun bb participantId =>
          jset bb participantId
            ((jundef (jget bb participantId)).sub (JVal.num split))) b) ∧
        allNum (ps.foldl (fun bb participantId =>
          jset bb participantId
            ((jundef (jget bb participantId)).sub (JVal.num split))) b) := by
  intro ps
  induction ps with
  | nil => intro b hwf hnum _; exact ⟨rfl, hwf, hnum⟩
  | cons p ps ih =>
      intro b hwf hnum hmem
      obtain ⟨vp, hvp⟩ :=
        jget_of_mem_jkeys hwf (hmem p (List.mem_cons_self p ps))
      obtain ⟨qp, rfl⟩ := allNum_val hnum hvp
      have hstep :
          jset b p ((jundef (jget b p)).sub (JVal.num split))
            = jset b p (JVal.num (qp - split)) := by
        rw [hvp]; rfl
      rw [List.foldl_cons, hstep]
      have hpk : p ∈ jkeys b := hmem p (List.mem_cons_self p ps)
      have hkeys : jkeys (jset b p (JVal.num (qp - split))) = jkeys b :=
        jkeys_jset_of_mem _ hpk
      obtain ⟨h1, h2, h3⟩ := ih (jset b p (JVal.num (qp - split)))
        (wf_jset p _ hwf) (allNum_jset p (JVal.num (qp - split)) hnum (by simp))
        (fun x hx => hkeys ▸ hmem x (List.mem_cons_of_mem _ hx))
      exact ⟨h1.trans hkeys, h2, h3⟩

theorem jget_processExpense {b : Obj} (e : Expense) {k : String} {q : ℚ}
    (hwf : wfObj b) (hnum : allNum b)
    (hpaid : e.paidBy ∈ jkeys b)
    (hparts : ∀ p ∈ e.participants, p ∈ jkeys b)
    (hk : jget b k = some (JVal.num q)) :
    jget (processExpense b e) k = some (JVal.num (q + expenseTerm e k)) := by
  obtain ⟨vp, hvp⟩ := jget_of_mem_jkeys hwf hpaid
  obtain ⟨qp, rfl⟩ := allNum_val hnum hvp
  simp only [processExpense]
  have hcred :
      jset b e.paidBy
          ((jundef (jget b e.paidBy)).add (JVal.num e.amount))
        = jset b e.paidBy (JVal.num (qp + e.amount)) := by
    rw [hvp]; rfl
  rw [hcred]
  have hkeys : jkeys (jset b e.paidBy (JVal.num (qp + e.amount))) = jkeys b :=
    jkeys_jset_of_mem _ hpaid
  have hwf1 := wf_jset e.paidBy (JVal.num (qp + e.amount)) hwf
  have hnum1 := allNum_jset e.paidBy (JVal.num (qp + e.amount)) hnum (by simp)
  have hk1 : jget (jset b e.paidBy (JVal.num (qp + e.amount))) k
      = some (JVal.num (q + if e.paidBy = k then e.amount else 0)) := by
    by_cases hpk : e.paidBy = k
    · subst hpk
      have hq : qp = q := by rw [hvp] at hk; injection hk with h; injection h
      subst hq
      rw [jget_jset_self, if_pos rfl]
    · rw [jget_jset_of_ne b _ hpk, if_neg hpk, add_zero]
      exact hk
  rw [jget_debit_fold _ e.participants _ k _ hwf1 hnum1
    (fun x hx => hkeys ▸ hparts x hx) hk1]
  congr 2
  rw [expenseTerm]
  ring

theorem processExpense_preserves {b : Obj} (e : Expense)
    (hwf : wfObj b) (hnum : allNum b)
    (hpaid : e.paidBy ∈ jkeys b)
    (hparts : ∀ p ∈ e.participants, p ∈ jkeys b) :
    jkeys (processExpense b e) = jkeys b ∧ wfObj (processExpense b e) ∧
      allNum (processExpense b e) := by
  obtain ⟨vp, hvp⟩ := jget_of_mem_jkeys hwf hpaid
  obtain ⟨qp, rfl⟩ := allNum_val hnum hvp
  simp only [processExpense]
  have hcred :
      jset b e.paidBy
          ((jundef (jget b e.paidBy)).add (JVal.num e.amount))
        = jset b e.paidBy (JVal.num (qp + e.amount)) := by
    rw [hvp]; rfl
  rw [hcred]
  have hkeys : jkeys (jset b e.paidBy (JVal.num (qp + e.amount))) = jkeys b :=
    jkeys_jset_of_mem _ hpaid
  obtain ⟨h1, h2, h3⟩ := debit_fold_preserves
    (e.amount / (e.participants.length : ℚ)) e.participants
    (jset b e.paidBy (JVal.num (qp + e.amount)))
    (wf_jset _ _ hwf) (allNum_jset e.paidBy (JVal.num (qp + e.amount)) hnum (by simp))
    (fun x hx => hkeys ▸ hparts x hx)
  exact ⟨h1.trans hkeys, h2, h3⟩

theorem jkeys_persons_map (l : List Person) (f : Person → JVal) :
    jkeys (l.map (fun p => (p.id, f p))) = l.map Person.id := by
  induction l with
  | nil => rfl
  | cons p l ih => simp only [List.map_cons, jkeys_cons, ih]

theorem allNum_persons_map (l : List Person) (g : String → ℚ) :
    allNum (l.map (fun p => (p.id, JVal.num (g p.id)))) := by
  intro kv hkv
  obtain ⟨p, _, rfl⟩ := List.mem_map.mp hkv
  simp

theorem obj_eq_map_of_jget (b : Obj) : ∀ (l : List Person) (g : String → ℚ),
    (l.map Person.id).Nodup → jkeys b = l.map Person.id →
    (∀ p ∈ l, jget b p.id = some (JVal.num (g p.id))) →
    b = l.map (fun p => (p.id, JVal.num (g p.id))) := by
  induction b with
  | nil =>
      intro l g _ hkeys _
      rw [jkeys] at hkeys
      simp only [List.map_nil] at hkeys
      rw [(List.map_eq_nil.mp hkeys.symm : l = []), List.map_nil]
  | cons kv rest ih =>
      intro l g hn hkeys hget
      cases l with
      | nil => simp [jkeys] at hkeys
      | cons p l2 =>
          rw [jkeys_cons] at hkeys
          simp only [List.map_cons, List.cons_eq_cons] at hkeys
          obtain ⟨hk1, hk2⟩ := hkeys
          have hv : kv.2 = JVal.num (g p.id) := by
            have := hget p (List.mem_cons_self p l2)
            rw [jget, if_pos hk1] at this
            injection this
          simp only [List.map_cons, List.cons_eq_cons] at hn ⊢
          rw [List.nodup_cons] at hn
          refine ⟨?_, ih l2 g hn.2 hk2 ?_⟩
          · cases kv with
            | mk a b2 => simp only at hk1 hv; rw [hk1, hv]
          · intro p2 hp2
            have hne : kv.1 ≠ p2.id := by
              rw [hk1]
              intro hh
              exact hn.1 (hh ▸ List.mem_map_of_mem Person.id hp2)
            have := hget p2 (List.mem_cons_of_mem _ hp2)
            rw [jget, if_neg hne] at this
            exact this

theorem initBalances_aux (persons : List Person) :
    ∀ acc : Obj, (persons.map Person.id).Nodup →
      (∀ p ∈ persons, p.id ∉ jkeys acc) →
      persons.foldl (fun balances person =>
          jset balances person.id (JVal.num 0)) acc
        = acc ++ persons.map (fun p => (p.id, JVal.num 0)) := by
  induction persons with
  | nil => intro acc _ _; simp
  | cons p persons ih =>
      intro acc hn hdisj
      rw [List.foldl_cons,
        jset_of_not_mem _ (hdisj p (List.mem_cons_self p persons))]
      simp only [List.map_cons] at hn
      rw [List.nodup_cons] at hn
      rw [ih (acc ++ [(p.id, JVal.num 0)]) hn.2 ?_]
      · simp
      · intro p2 hp2
        rw [jkeys, List.map_append, List.mem_append]
        push_neg
        refine ⟨hdisj p2 (List.mem_cons_of_mem _ hp2), ?_⟩
        simp only [List.map_cons, List.map_nil, List.mem_singleton]
        intro hh
        exact hn.1 (hh ▸ List.mem_map_of_mem Person.id hp2)

theorem initBalances_eq (persons : List Person)
    (hn : (persons.map Person.id).Nodup) :
    initBalances persons = persons.map (fun p => (p.id, JVal.num 0)) := by
  rw [initBalances, initBalances_aux persons [] hn (by simp [jkeys])]
  simp

theorem foldl_processExpense_eq (persons : List Person)
    (hn : (persons.map Person.id).Nodup) :
    ∀ (es : List Expense) (g : String → ℚ),
      (∀ e ∈ es, e.paidBy ∈ persons.map Person.id ∧
        ∀ p ∈ e.participants, p ∈ persons.map Person.id) →
      es.foldl processExpense
          (persons.map (fun p => (p.id, JVal.num (g p.id))))
        = persons.map (fun p =>
            (p.id, JVal.num (g p.id + rawBalanceList es p.id))) := by
  intro es
  induction es with
  | nil =>
      intro g _
      simp only [List.foldl_nil, rawBalanceList, List.map_nil, List.sum_nil,
        add_zero]
  | cons e es ih =>
      intro g href
      have hkeys := jkeys_persons_map persons
        (fun p => JVal.num (g p.id))
      have hwf : wfObj (persons.map (fun p => (p.id, JVal.num (g p.id)))) := by
        rw [wfObj, hkeys]; exact hn
      have hnum := allNum_persons_map persons g
      have hrefs := href e (List.mem_cons_self e es)
      have hstep : processExpense
          (persons.map (fun p => (p.id, JVal.num (g p.id)))) e
          = persons.map (fun p =>
              (p.id, JVal.num ((fun k => g k + expenseTerm e k) p.id))) := by
        obtain ⟨hk, hw, hnm⟩ := processExpense_preserves e hwf hnum
          (hkeys ▸ hrefs.1) (fun x hx => hkeys ▸ hrefs.2 x hx)
        exact obj_eq_map_of_jget _ persons (fun k => g k + expenseTerm e k)
          hn (hk.trans hkeys) (fun p hp =>
            jget_processExpense e hwf hnum (hkeys ▸ hrefs.1)
              (fun x hx => hkeys ▸ hrefs.2 x hx)
              (jget_eq_of_mem hwf
                (List.mem_map_of_mem (fun p => (p.id, JVal.num (g p.id))) hp)))
      rw [List.foldl_cons, hstep,
        ih (fun k => g k + expenseTerm e k) (fun x hx =>
          href x (List.mem_cons_of_mem _ hx))]
      apply List.map_congr_left
      intro p _
      simp only [rawBalanceList, List.map_cons, List.sum_cons]
      congr 2
      ring

theorem map_sum_add {α : Type} (l : List α) (f g : α → ℚ) :
    (l.map (fun x => f x + g x)).sum = (l.map f).sum + (l.map g).sum := by
  induction l with
  | nil => simp
  | cons a l ih => simp only [List.map_cons, List.sum_cons, ih]; ring

theorem map_sum_sub {α : Type} (l : List α) (f g : α → ℚ) :
    (l.map (fun x => f x - g x)).sum = (l.map f).sum - (l.map g).sum := by
  induction l with
  | nil => simp
  | cons a l ih => simp only [List.map_cons, List.sum_cons, ih]; ring

theorem map_sum_mul_right {α : Type} (l : List α) (f : α → ℚ) (c : ℚ) :
    (l.map (fun x => f x * c)).sum = (l.map f).sum * c := by
  induction l with
  | nil => simp
  | cons a l ih => simp only [List.map_cons, List.sum_cons, ih]; ring

theorem abs_map_sum_le {α : Type} (l : List α) (f : α → ℚ) :
    |(l.map f).sum| ≤ (l.map (fun x => |f x|)).sum := by
  induction l with
  | nil => simp
  | cons a l ih =>
      simp only [List.map_cons, List.sum_cons]
      calc |f a + (l.map f).sum| ≤ |f a| + |(l.map f).sum| := abs_add _ _
        _ ≤ |f a| + (l.map (fun x => |f x|)).sum := by linarith

theorem map_sum_le_length_mul {α : Type} (l : List α) (f : α → ℚ) (c : ℚ)
    (h : ∀ x ∈ l, f x ≤ c) : (l.map f).sum ≤ (l.length : ℚ) * c := by
  induction l with
  | nil => simp
  | cons a l ih =>
      simp only [List.map_cons, List.sum_cons, List.length_cons]
      have h1 := h a (List.mem_cons_self a l)
      have h2 := ih (fun x hx => h x (List.mem_cons_of_mem _ hx))
      push_cast
      linarith

theorem rawBalanceList_split (k : String) : ∀ es : List Expense,
    rawBalanceList es k
      = rawBalanceList (es.filter (fun e => !e.participants.isEmpty)) k
        + ((es.filter (fun e => e.participants.isEmpty)).map
            (fun e => if e.paidBy = k then e.amount else 0)).sum := by
  intro es
  induction es with
  | nil => simp [rawBalanceList]
  | cons e es ih =>
      rw [show rawBalanceList (e :: es) k
          = expenseTerm e k + rawBalanceList es k from by
        simp [rawBalanceList]]
      by_cases he : e.participants.isEmpty
      · have hnil : e.participants = [] := List.isEmpty_iff.mp he
        have hterm : expenseTerm e k
            = if e.paidBy = k then e.amount else 0 := by
          rw [expenseTerm, hnil]
          simp
        rw [List.filter_cons_of_neg (by simp [he]),
          List.filter_cons_of_pos (by simpa using he),
          List.map_cons, List.sum_cons, ih, hterm]
        ring
      · rw [List.filter_cons_of_pos (by simp [he]),
          List.filter_cons_of_neg (by simpa using he),
          show rawBalanceList
              (e :: es.filter (fun e2 => !e2.participants.isEmpty)) k
            = expenseTerm e k
              + rawBalanceList
                  (es.filter (fun e2 => !e2.participants.isEmpty)) k from by
            simp [rawBalanceList],
          ih]
        ring

theorem rawBalance_split (t : Trip) (k : String) :
    rawBalance t k = rawBalance t.filterNonEmpty k + emptyCredit t k := by
  rw [rawBalance, rawBalance, Trip.filterNonEmpty, emptyCredit]
  exact rawBalanceList_split k t.expenses

theorem sum_if_eq_zero (x : String) (persons : List Person) (amt : ℚ)
    (hx : x ∉ persons.map Person.id) :
    (persons.map (fun p => if x = p.id then amt else 0)).sum = 0 := by
  induction persons with
  | nil => simp
  | cons p persons ih =>
      simp only [List.map_cons, List.mem_cons] at hx
      push_neg at hx
      simp only [List.map_cons, List.sum_cons, if_neg hx.1, zero_add]
      exact ih hx.2

theorem sum_if_eq (x : String) (persons : List Person) (amt : ℚ)
    (hn : (persons.map Person.id).Nodup) (hx : x ∈ persons.map Person.id) :
    (persons.map (fun p => if x = p.id then amt else 0)).sum = amt := by
  induction persons with
  | nil => simp at hx
  | cons p persons ih =>
      simp only [List.map_cons] at hn hx
      rw [List.nodup_cons] at hn
      rcases List.mem_cons.mp hx with h | h
      · simp only [List.map_cons, List.sum_cons, if_pos h]
        rw [sum_if_eq_zero x persons amt (by rw [h]; exact hn.1), add_zero]
      · have hne : x ≠ p.id := by
          intro hh
          exact hn.1 (hh ▸ h)
        simp only [List.map_cons, List.sum_cons, if_neg hne, zero_add]
        exact ih hn.2 h

theorem sum_count (persons : List Person)
    (hn : (persons.map Person.id).Nodup) : ∀ l : List String,
      (∀ a ∈ l, a ∈ persons.map Person.id) →
      (persons.map (fun p => (l.count p.id : ℚ))).sum = (l.length : ℚ) := by
  intro l
  induction l with
  | nil => simp
  | cons a l ih =>
      intro hmem
      have hstep : persons.map (fun p => ((a :: l).count p.id : ℚ))
          = persons.map (fun p =>
              (l.count p.id : ℚ) + if a = p.id then 1 else 0) := by
        apply List.map_congr_left
        intro p _
        rw [List.count_cons]
        by_cases hap : a = p.id
        · rw [if_pos hap, if_pos (beq_iff_eq.mpr hap)]
          push_cast
          ring
        · rw [if_neg hap, if_neg (by simpa using hap)]
          push_cast
          ring
      rw [hstep, map_sum_add,
        ih (fun x hx => hmem x (List.mem_cons_of_mem _ hx)),
        sum_if_eq a persons 1 hn (hmem a (List.mem_cons_self a l)),
        List.length_cons]
      push_cast
      ring

theorem sum_expenseTerm (e : Expense) (persons : List Person)
    (hn : (persons.map Person.id).Nodup)
    (hpaid : e.paidBy ∈ persons.map Person.id)
    (hparts : ∀ p ∈ e.participants, p ∈ persons.map Person.id)
    (hne : e.participants ≠ []) :
    (persons.map (fun p => expenseTerm e p.id)).sum = 0 := by
  have hsplit : persons.map (fun p => expenseTerm e p.id)
      = persons.map (fun p =>
          (if e.paidBy = p.id then e.amount else 0)
            - (e.participants.count p.id : ℚ)
                * (e.amount / (e.participants.length : ℚ))) := by
    apply List.map_congr_left
    intro p _
    rw [expenseTerm]
  rw [hsplit, map_sum_sub, sum_if_eq e.paidBy persons e.amount hn hpaid,
    map_sum_mul_right, sum_count persons hn e.participants hparts]
  have hlen : (e.participants.length : ℚ) ≠ 0 := by
    simp only [ne_eq, Nat.cast_eq_zero, List.length_eq_zero]
    exact hne
  field_simp

theorem sum_rawBalanceList (persons : List Person)
    (hn : (persons.map Person.id).Nodup) : ∀ es : List Expense,
      (∀ e ∈ es, e.paidBy ∈ persons.map Person.id ∧
        (∀ p ∈ e.participants, p ∈ persons.map Person.id) ∧
        e.participants ≠ []) →
      (persons.map (fun p => rawBalanceList es p.id)).sum = 0 := by
  intro es
  induction es with
  | nil => simp [rawBalanceList]
  | cons e es ih =>
      intro h
      have hstep : persons.map (fun p => rawBalanceList (e :: es) p.id)
          = persons.map (fun p =>
              expenseTerm e p.id + rawBalanceList es p.id) := by
        apply List.map_congr_left
        intro p _
        simp [rawBalanceList]
      obtain ⟨h1, h2, h3⟩ := h e (List.mem_cons_self e es)
      rw [hstep, map_sum_add, sum_expenseTerm e persons hn h1 h2 h3,
        ih (fun x hx => h x (List.mem_cons_of_mem _ hx))]
      ring

theorem sumValues_persons_map (persons : List Person) (g : String → ℚ) :
    sumValues (persons.map (fun p => (p.id, JVal.num (g p.id))))
      = (persons.map (fun p => g p.id)).sum := by
  induction persons with
  | nil => rfl
  | cons p persons ih =>
      simp only [List.map_cons, sumValues, List.sum_cons] at ih ⊢
      rw [← ih]
      rfl

theorem calculateBalances_eq_formula (t : Trip) (hwf : t.wfPersons)
    (href : t.validRefs) :
    calculateBalances t = t.persons.map (fun p =>
      (p.id, JVal.num (round2 (rawBalance t p.id)))) := by
  by_cases hlen : t.persons.length = 0
  · rw [calculateBalances, if_pos hlen,
      List.length_eq_zero.mp hlen, List.map_nil]
  · rw [calculateBalances, if_neg hlen, initBalances_eq t.persons hwf]
    have h0 : t.persons.map (fun p => (p.id, JVal.num 0))
        = t.persons.map (fun p =>
            (p.id, JVal.num ((fun _ => (0 : ℚ)) p.id))) := rfl
    rw [h0, foldl_processExpense_eq t.persons hwf t.expenses
      (fun _ => (0 : ℚ)) href, List.map_map]
    apply List.map_congr_left
    intro p _
    simp only [Function.comp_apply, JVal.round2v, zero_add, rawBalance]

/-! ## Settlement-resolver lemmas -/

theorem resolveLoop_nil_left (ds : List Party) : resolveLoop [] ds = [] := by
  rw [resolveLoop]

theorem resolveLoop_nil_right (c : Party) (cs : List Party) :
    resolveLoop (c :: cs) [] = [] := by
  rw [resolveLoop]

theorem resolveLoop_cons (c : Party) (cs : List Party) (d : Party)
    (ds : List Party) :
    resolveLoop (c :: cs) (d :: ds)
      = if min c.amount d.amount > (0.01 : ℚ)
        then (⟨d.id, c.id, round2 (min c.amount d.amount)⟩ : Settlement) ::
          resolveLoop
            (if c.amount - min c.amount d.amount < (0.01 : ℚ) then cs
              else ⟨c.id, c.amount - min c.amount d.amount⟩ :: cs)
            (if d.amount - min c.amount d.amount < (0.01 : ℚ) then ds
              else ⟨d.id, d.amount - min c.amount d.amount⟩ :: ds)
        else resolveLoop
            (if c.amount - min c.amount d.amount < (0.01 : ℚ) then cs
              else ⟨c.id, c.amount - min c.amount d.amount⟩ :: cs)
            (if d.amount - min c.amount d.amount < (0.01 : ℚ) then ds
              else ⟨d.id, d.amount - min c.amount d.amount⟩ :: ds) := by
  rw [resolveLoop]

theorem next_length_lt (c : Party) (cs : List Party) (d : Party)
    (ds : List Party) :
    (if c.amount - min c.amount d.amount < (0.01 : ℚ) then cs
        else ⟨c.id, c.amount - min c.amount d.amount⟩ :: cs).length
      + (if d.amount - min c.amount d.amount < (0.01 : ℚ) then ds
          else ⟨d.id, d.amount - min c.amount d.amount⟩ :: ds).length
      < (c :: cs).length + (d :: ds).length := by
  have hmin : c.amount - min c.amount d.amount = 0 ∨
      d.amount - min c.amount d.amount = 0 := by
    rcases min_choice c.amount d.amount with h | h
    · left; rw [h]; ring
    · right; rw [h]; ring
  split_ifs with h1 h2 h3
  all_goals simp only [List.length_cons]
  all_goals try omega
  exfalso
  rcases hmin with h | h
  · exact h1 (by rw [h]; norm_num)
  · exact h3 (by rw [h]; norm_num)

theorem ids_of_if {cond : Prop} [Decidable cond] (c : Party)
    (cs : List Party) (a : ℚ) {x : String}
    (h : x ∈ (if cond then cs else ⟨c.id, a⟩ :: cs).map Party.id) :
    x ∈ (c :: cs).map Party.id := by
  split at h
  · rw [List.map_cons]
    exact List.mem_cons_of_mem _ h
  · rw [List.map_cons] at h ⊢
    exact h

theorem prop_of_if {cond : Prop} [Decidable cond] (c : Party)
    (cs : List Party) (a : ℚ) (P : Party → Prop)
    (hcs : ∀ x ∈ cs, P x) (hc : P ⟨c.id, a⟩) :
    ∀ x ∈ (if cond then cs else ⟨c.id, a⟩ :: cs), P x := by
  split
  · exact hcs
  · intro x hx
    rcases List.mem_cons.mp hx with h | h
    · rw [h]; exact hc
    · exact hcs x h

theorem nodup_of_if {cond : Prop} [Decidable cond] {c : Party}
    {cs : List Party} (a : ℚ)
    (h : ((c :: cs).map Party.id).Nodup) :
    ((if cond then cs else ⟨c.id, a⟩ :: cs).map Party.id).Nodup := by
  split
  · rw [List.map_cons] at h
    exact (List.nodup_cons.mp h).2
  · exact h

theorem paidTo_cons (k : String) (s : Settlement) (S : List Settlement) :
    paidTo k (s :: S) = (if s.toId = k then s.amount else 0) + paidTo k S := by
  by_cases h : s.toId = k
  · simp [paidTo, List.filter_cons, h]
  · simp [paidTo, List.filter_cons, h]

theorem paidFrom_cons (k : String) (s : Settlement) (S : List Settlement) :
    paidFrom k (s :: S)
      = (if s.fromId = k then s.amount else 0) + paidFrom k S := by
  by_cases h : s.fromId = k
  · simp [paidFrom, List.filter_cons, h]
  · simp [paidFrom, List.filter_cons, h]

theorem paidTo_eq_zero {k : String} {S : List Settlement}
    (h : ∀ s ∈ S, s.toId ≠ k) : paidTo k S = 0 := by
  induction S with
  | nil => rfl
  | cons s S ih =>
      rw [paidTo_cons, if_neg (h s (List.mem_cons_self s S)), zero_add]
      exact ih (fun x hx => h x (List.mem_cons_of_mem _ hx))

theorem paidFrom_eq_zero {k : String} {S : List Settlement}
    (h : ∀ s ∈ S, s.fromId ≠ k) : paidFrom k S = 0 := by
  induction S with
  | nil => rfl
  | cons s S ih =>
      rw [paidFrom_cons, if_neg (h s (List.mem_cons_self s S)), zero_add]
      exact ih (fun x hx => h x (List.mem_cons_of_mem _ hx))

theorem paidTo_nonneg {k : String} {S : List Settlement}
    (h : ∀ s ∈ S, 0 ≤ s.amount) : 0 ≤ paidTo k S := by
  induction S with
  | nil => simp [paidTo]
  | cons s S ih =>
      rw [paidTo_cons]
      have h1 := h s (List.mem_cons_self s S)
      have h2 := ih (fun x hx => h x (List.mem_cons_of_mem _ hx))
      by_cases hk : s.toId = k
      · rw [if_pos hk]; linarith
      · rw [if_neg hk]; linarith

theorem paidFrom_nonneg {k : String} {S : List Settlement}
    (h : ∀ s ∈ S, 0 ≤ s.amount) : 0 ≤ paidFrom k S := by
  induction S with
  | nil => simp [paidFrom]
  | cons s S ih =>
      rw [paidFrom_cons]
      have h1 := h s (List.mem_cons_self s S)
      have h2 := ih (fun x hx => h x (List.mem_cons_of_mem _ hx))
      by_cases hk : s.fromId = k
      · rw [if_pos hk]; linarith
      · rw [if_neg hk]; linarith

theorem loop_ids (n : Nat) : ∀ (cs ds : List Party),
    cs.length + ds.length ≤ n → ∀ s ∈ resolveLoop cs ds,
      s.toId ∈ cs.map Party.id ∧ s.fromId ∈ ds.map Party.id := by
  induction n with
  | zero =>
      intro cs ds hlen s hs
      cases cs with
      | nil => rw [resolveLoop_nil_left] at hs; simp at hs
      | cons c cs =>
          cases ds with
          | nil => rw [resolveLoop_nil_right] at hs; simp at hs
          | cons d ds => simp only [List.length_cons] at hlen; omega
  | succ n ih =>
      intro cs ds hlen s hs
      cases cs with
      | nil => rw [resolveLoop_nil_left] at hs; simp at hs
      | cons c cs =>
          cases ds with
          | nil => rw [resolveLoop_nil_right] at hs; simp at hs
          | cons d ds =>
              have hnext : (if c.amount - min c.amount d.amount < (0.01 : ℚ)
                    then cs
                    else ⟨c.id, c.amount - min c.amount d.amount⟩ ::
                      cs).length
                  + (if d.amount - min c.amount d.amount < (0.01 : ℚ) then ds
                      else ⟨d.id, d.amount - min c.amount d.amount⟩ ::
                        ds).length ≤ n := by
                have := next_length_lt c cs d ds
                simp only [List.length_cons] at this hlen ⊢
                omega
              rw [resolveLoop_cons] at hs
              by_cases hp : min c.amount d.amount > (0.01 : ℚ)
              · rw [if_pos hp] at hs
                rcases List.mem_cons.mp hs with h | h
                · rw [h]
                  exact ⟨by simp, by simp⟩
                · obtain ⟨h1, h2⟩ := ih _ _ hnext s h
                  exact ⟨ids_of_if c cs _ h1, ids_of_if d ds _ h2⟩
              · rw [if_neg hp] at hs
                obtain ⟨h1, h2⟩ := ih _ _ hnext s hs
                exact ⟨ids_of_if c cs _ h1, ids_of_if d ds _ h2⟩

theorem loop_amount_gt (n : Nat) : ∀ (cs ds : List Party),
    cs.length + ds.length ≤ n →
    (∀ x ∈ cs, centQ x.amount) → (∀ x ∈ ds, centQ x.amount) →
    ∀ s ∈ resolveLoop cs ds, (0.01 : ℚ) < s.amount ∧ centQ s.amount := by
  induction n with
  | zero =>
      intro cs ds hlen _ _ s hs
      cases cs with
      | nil => rw [resolveLoop_nil_left] at hs; simp at hs
      | cons c cs =>
          cases ds with
          | nil => rw [resolveLoop_nil_right] at hs; simp at hs
          | cons d ds => simp only [List.length_cons] at hlen; omega
  | succ n ih =>
      intro cs ds hlen hcc hcd s hs
      cases cs with
      | nil => rw [resolveLoop_nil_left] at hs; simp at hs
      | cons c cs =>
          cases ds with
          | nil => rw [resolveLoop_nil_right] at hs; simp at hs
          | cons d ds =>
              have hnext : (if c.amount - min c.amount d.amount < (0.01 : ℚ)
                    then cs
                    else ⟨c.id, c.amount - min c.amount d.amount⟩ ::
                      cs).length
                  + (if d.amount - min c.amount d.amount < (0.01 : ℚ) then ds
                      else ⟨d.id, d.amount - min c.amount d.amount⟩ ::
                        ds).length ≤ n := by
                have := next_length_lt c cs d ds
                simp only [List.length_cons] at this hlen ⊢
                omega
              have hcent : centQ (min c.amount d.amount) :=
                centQ_min (hcc c (List.mem_cons_self c cs))
                  (hcd d (List.mem_cons_self d ds))
              have hnc : ∀ x ∈ (if c.amount - min c.amount d.amount
                    < (0.01 : ℚ) then cs
                    else ⟨c.id, c.amount - min c.amount d.amount⟩ :: cs),
                  centQ x.amount :=
                prop_of_if c cs _ (fun x => centQ x.amount)
                  (fun x hx => hcc x (List.mem_cons_of_mem _ hx))
                  (centQ_sub (hcc c (List.mem_cons_self c cs)) hcent)
              have hnd : ∀ x ∈ (if d.amount - min c.amount d.amount
                    < (0.01 : ℚ) then ds
                    else ⟨d.id, d.amount - min c.amount d.amount⟩ :: ds),
                  centQ x.amount :=
                prop_of_if d ds _ (fun x => centQ x.amount)
                  (fun x hx => hcd x (List.mem_cons_of_mem _ hx))
                  (centQ_sub (hcd d (List.mem_cons_self d ds)) hcent)
              rw [resolveLoop_cons] at hs
              by_cases hp : min c.amount d.amount > (0.01 : ℚ)
              · rw [if_pos hp] at hs
                rcases List.mem_cons.mp hs with h | h
                · rw [h]
                  simp only []
                  rw [round2_of_centQ hcent]
                  exact ⟨hp, hcent⟩
                · exact ih _ _ hnext hnc hnd s h
              · rw [if_neg hp] at hs
                exact ih _ _ hnext hnc hnd s hs

theorem loop_paidTo_le (n : Nat) : ∀ (cs ds : List Party),
    cs.length + ds.length ≤ n →
    ((cs.map Party.id).Nodup) →
    (∀ x ∈ cs, centQ x.amount ∧ 0 ≤ x.amount) →
    (∀ x ∈ ds, centQ x.amount ∧ 0 ≤ x.amount) →
    ∀ x ∈ cs, paidTo x.id (resolveLoop cs ds) ≤ x.amount := by
  induction n with
  | zero =>
      intro cs ds hlen _ hcc _ x hx
      cases cs with
      | nil => simp at hx
      | cons c cs =>
          cases ds with
          | nil =>
              rw [resolveLoop_nil_right, paidTo_eq_zero (by simp)]
              exact (hcc x hx).2
          | cons d ds => simp only [List.length_cons] at hlen; omega
  | succ n ih =>
      intro cs ds hlen hnodup hcc hcd x hx
      cases cs with
      | nil => simp at hx
      | cons c cs =>
          cases ds with
          | nil =>
              rw [resolveLoop_nil_right, paidTo_eq_zero (by simp)]
              exact (hcc x hx).2
          | cons d ds =>
              have hnext : (if c.amount - min c.amount d.amount < (0.01 : ℚ)
                    then cs
                    else ⟨c.id, c.amount - min c.amount d.amount⟩ ::
                      cs).length
                  + (if d.amount - min c.amount d.amount < (0.01 : ℚ) then ds
                      else ⟨d.id, d.amount - min c.amount d.amount⟩ ::
                        ds).length ≤ n := by
                have := next_length_lt c cs d ds
                simp only [List.length_cons] at this hlen ⊢
                omega
              have hcent : centQ (min c.amount d.amount) :=
                centQ_min (hcc c (List.mem_cons_self c cs)).1
                  (hcd d (List.mem_cons_self d ds)).1
              have hm0 : 0 ≤ min c.amount d.amount :=
                le_min (hcc c (List.mem_cons_self c cs)).2
                  (hcd d (List.mem_cons_self d ds)).2
              have hmc : min c.amount d.amount ≤ c.amount := min_le_left _ _
              have hmd : min c.amount d.amount ≤ d.amount := min_le_right _ _
              have hnc : ∀ y ∈ (if c.amount - min c.amount d.amount
                    < (0.01 : ℚ) then cs
                    else ⟨c.id, c.amount - min c.amount d.amount⟩ :: cs),
                  centQ y.amount ∧ 0 ≤ y.amount :=
                prop_of_if c cs _ (fun y => centQ y.amount ∧ 0 ≤ y.amount)
                  (fun y hy => hcc y (List.mem_cons_of_mem _ hy))
                  ⟨centQ_sub (hcc c (List.mem_cons_self c cs)).1 hcent,
                    by simpa using hmc⟩
              have hnd : ∀ y ∈ (if d.amount - min c.amount d.amount
                    < (0.01 : ℚ) then ds
                    else ⟨d.id, d.amount - min c.amount d.amount⟩ :: ds),
                  centQ y.amount ∧ 0 ≤ y.amount :=
                prop_of_if d ds _ (fun y => centQ y.amount ∧ 0 ≤ y.amount)
                  (fun y hy => hcd y (List.mem_cons_of_mem _ hy))
                  ⟨centQ_sub (hcd d (List.mem_cons_self d ds)).1 hcent,
                    by simpa using hmd⟩
              have hnn : ((if c.amount - min c.amount d.amount < (0.01 : ℚ)
                    then cs
                    else ⟨c.id, c.amount - min c.amount d.amount⟩ ::
                      cs).map Party.id).Nodup :=
                nodup_of_if _ hnodup
              have hcid : c.id ∉ cs.map Party.id :=
                (List.nodup_cons.mp (by simpa using hnodup)).1
              rw [resolveLoop_cons]
              rcases List.mem_cons.mp hx with hxc | hxcs
              · subst hxc
                by_cases hp : min x.amount d.amount > (0.01 : ℚ)
                · rw [if_pos hp, paidTo_cons, if_pos rfl,
                    round2_of_centQ hcent]
                  by_cases hdrop : x.amount - min x.amount d.amount
                      < (0.01 : ℚ)
                  · rw [if_pos hdrop] at hnext ⊢
                    have hz : paidTo x.id (resolveLoop cs
                        (if d.amount - min x.amount d.amount < (0.01 : ℚ)
                          then ds
                          else ⟨d.id, d.amount - min x.amount d.amount⟩ ::
                            ds)) = 0 := by
                      apply paidTo_eq_zero
                      intro s hs hsk
                      exact hcid (hsk ▸ (loop_ids n _ _ hnext s hs).1)
                    rw [hz]
                    linarith
                  · rw [if_neg hdrop] at hnext hnn hnc ⊢
                    have hrec := ih _ _ hnext hnn hnc hnd
                      ⟨x.id, x.amount - min x.amount d.amount⟩
                      (List.mem_cons_self _ _)
                    simp only at hrec
                    linarith
                · rw [if_neg hp]
                  by_cases hdrop : x.amount - min x.amount d.amount
                      < (0.01 : ℚ)
                  · rw [if_pos hdrop] at hnext ⊢
                    have hz : paidTo x.id (resolveLoop cs
                        (if d.amount - min x.amount d.amount < (0.01 : ℚ)
                          then ds
                          else ⟨d.id, d.amount - min x.amount d.amount⟩ ::
                            ds)) = 0 := by
                      apply paidTo_eq_zero
                      intro s hs hsk
                      exact hcid (hsk ▸ (loop_ids n _ _ hnext s hs).1)
                    rw [hz]
                    exact (hcc x (List.mem_cons_self x cs)).2
                  · rw [if_neg hdrop] at hnext hnn hnc ⊢
                    have hrec := ih _ _ hnext hnn hnc hnd
                      ⟨x.id, x.amount - min x.amount d.amount⟩
                      (List.mem_cons_self _ _)
                    simp only at hrec
                    linarith
              · have hxid_ne : ¬ c.id = x.id := by
                  intro hh
                  exact hcid (hh ▸ List.mem_map_of_mem Party.id hxcs)
                have hxmem : x ∈ (if c.amount - min c.amount d.amount
                    < (0.01 : ℚ) then cs
                    else ⟨c.id, c.amount - min c.amount d.amount⟩ :: cs) := by
                  by_cases hdrop : c.amount - min c.amount d.amount
                      < (0.01 : ℚ)
                  · rw [if_pos hdrop]; exact hxcs
                  · rw [if_neg hdrop]; exact List.mem_cons_of_mem _ hxcs
                have hrec := ih _ _ hnext hnn hnc hnd x hxmem
                by_cases hp : min c.amount d.amount > (0.01 : ℚ)
                · rw [if_pos hp, paidTo_cons, if_neg hxid_ne, zero_add]
                  exact hrec
                · rw [if_neg hp]
                  exact hrec

theorem loop_paidFrom_le (n : Nat) : ∀ (cs ds : List Party),
    cs.length + ds.length ≤ n →
    ((ds.map Party.id).Nodup) →
    (∀ x ∈ cs, centQ x.amount ∧ 0 ≤ x.amount) →
    (∀ x ∈ ds, centQ x.amount ∧ 0 ≤ x.amount) →
    ∀ x ∈ ds, paidFrom x.id (resolveLoop cs ds) ≤ x.amount := by
  induction n with
  | zero =>
      intro cs ds hlen _ _ hcd x hx
      cases cs with
      | nil =>
          rw [resolveLoop_nil_left, paidFrom_eq_zero (by simp)]
          exact (hcd x hx).2
      | cons c cs =>
          cases ds with
          | nil => simp at hx
          | cons d ds => simp only [List.length_cons] at hlen; omega
  | succ n ih =>
      intro cs ds hlen hnodup hcc hcd x hx
      cases cs with
      | nil =>
          rw [resolveLoop_nil_left, paidFrom_eq_zero (by simp)]
          exact (hcd x hx).2
      | cons c cs =>
          cases ds with
          | nil => simp at hx
          | cons d ds =>
              have hnext : (if c.amount - min c.amount d.amount < (0.01 : ℚ)
                    then cs
                    else ⟨c.id, c.amount - min c.amount d.amount⟩ ::
                      cs).length
                  + (if d.amount - min c.amount d.amount < (0.01 : ℚ) then ds
                      else ⟨d.id, d.amount - min c.amount d.amount⟩ ::
                        ds).length ≤ n := by
                have := next_length_lt c cs d ds
                simp only [List.length_cons] at this hlen ⊢
                omega
              have hcent : centQ (min c.amount d.amount) :=
                centQ_min (hcc c (List.mem_cons_self c cs)).1
                  (hcd d (List.mem_cons_self d ds)).1
              have hm0 : 0 ≤ min c.amount d.amount :=
                le_min (hcc c (List.mem_cons_self c cs)).2
                  (hcd d (List.mem_cons_self d ds)).2
              have hmc : min c.amount d.amount ≤ c.amount := min_le_left _ _
              have hmd : min c.amount d.amount ≤ d.amount := min_le_right _ _
              have hnc : ∀ y ∈ (if c.amount - min c.amount d.amount
                    < (0.01 : ℚ) then cs
                    else ⟨c.id, c.amount - min c.amount d.amount⟩ :: cs),
                  centQ y.amount ∧ 0 ≤ y.amount :=
                prop_of_if c cs _ (fun y => centQ y.amount ∧ 0 ≤ y.amount)
                  (fun y hy => hcc y (List.mem_cons_of_mem _ hy))
                  ⟨centQ_sub (hcc c (List.mem_cons_self c cs)).1 hcent,
                    by simpa using hmc⟩
              have hnd : ∀ y ∈ (if d.amount - min c.amount d.amount
                    < (0.01 : ℚ) then ds
                    else ⟨d.id, d.amount - min c.amount d.amount⟩ :: ds),
                  centQ y.amount ∧ 0 ≤ y.amount :=
                prop_of_if d ds _ (fun y => centQ y.amount ∧ 0 ≤ y.amount)
                  (fun y hy => hcd y (List.mem_cons_of_mem _ hy))
                  ⟨centQ_sub (hcd d (List.mem_cons_self d ds)).1 hcent,
                    by simpa using hmd⟩
              have hnn : ((if d.amount - min c.amount d.amount < (0.01 : ℚ)
                    then ds
                    else ⟨d.id, d.amount - min c.amount d.amount⟩ ::
                      ds).map Party.id).Nodup :=
                nodup_of_if _ hnodup
              have hdid : d.id ∉ ds.map Party.id :=
                (List.nodup_cons.mp (by simpa using hnodup)).1
              rw [resolveLoop_cons]
              rcases List.mem_cons.mp hx with hxd | hxds
              · subst hxd
                by_cases hp : min c.amount x.amount > (0.01 : ℚ)
                · rw [if_pos hp, paidFrom_cons, if_pos rfl,
                    round2_of_centQ hcent]
                  by_cases hdrop : x.amount - min c.amount x.amount
                      < (0.01 : ℚ)
                  · rw [if_pos hdrop] at hnext ⊢
                    have hz : paidFrom x.id (resolveLoop
                        (if c.amount - min c.amount x.amount < (0.01 : ℚ)
                          then cs
                          else ⟨c.id, c.amount - min c.amount x.amount⟩ ::
                            cs) ds) = 0 := by
                      apply paidFrom_eq_zero
                      intro s hs hsk
                      exact hdid (hsk ▸ (loop_ids n _ _ hnext s hs).2)
                    rw [hz]
                    linarith
                  · rw [if_neg hdrop] at hnext hnn hnd ⊢
                    have hrec := ih _ _ hnext hnn hnc hnd
                      ⟨x.id, x.amount - min c.amount x.amount⟩
                      (List.mem_cons_self _ _)
                    simp only at hrec
                    linarith
                · rw [if_neg hp]
                  by_cases hdrop : x.amount - min c.amount x.amount
                      < (0.01 : ℚ)
                  · rw [if_pos hdrop] at hnext ⊢
                    have hz : paidFrom x.id (resolveLoop
                        (if c.amount - min c.amount x.amount < (0.01 : ℚ)
                          then cs
                          else ⟨c.id, c.amount - min c.amount x.amount⟩ ::
                            cs) ds) = 0 := by
                      apply paidFrom_eq_zero
                      intro s hs hsk
                      exact hdid (hsk ▸ (loop_ids n _ _ hnext s hs).2)
                    rw [hz]
                    exact (hcd x (List.mem_cons_self x ds)).2
                  · rw [if_neg hdrop] at hnext hnn hnd ⊢
                    have hrec := ih _ _ hnext hnn hnc hnd
                      ⟨x.id, x.amount - min c.amount x.amount⟩
                      (List.mem_cons_self _ _)
                    simp only at hrec
                    linarith
              · have hxid_ne : ¬ d.id = x.id := by
                  intro hh
                  exact hdid (hh ▸ List.mem_map_of_mem Party.id hxds)
                have hxmem : x ∈ (if d.amount - min c.amount d.amount
                    < (0.01 : ℚ) then ds
                    else ⟨d.id, d.amount - min c.amount d.amount⟩ :: ds) := by
                  by_cases hdrop : d.amount - min c.amount d.amount
                      < (0.01 : ℚ)
                  · rw [if_pos hdrop]; exact hxds
                  · rw [if_neg hdrop]; exact List.mem_cons_of_mem _ hxds
                have hrec := ih _ _ hnext hnn hnc hnd x hxmem
                by_cases hp : min c.amount d.amount > (0.01 : ℚ)
                · rw [if_pos hp, paidFrom_cons, if_neg hxid_ne, zero_add]
                  exact hrec
                · rw [if_neg hp]
                  exact hrec

theorem jget_applySettlements : ∀ (S : List Settlement) (o : Obj)
    (k : String) (q : ℚ), jget o k = some (JVal.num q) →
    jget (applySettlements S o) k
      = some (JVal.num (q + paidFrom k S - paidTo k S)) := by
  intro S
  induction S with
  | nil =>
      intro o k q hk
      simpa [applySettlements, paidTo, paidFrom] using hk
  | cons s S ih =>
      intro o k q hk
      rw [show applySettlements (s :: S) o
          = applySettlements S (applyOne o s) from rfl]
      have hb1 : jget (jset o s.fromId
          ((jundef (jget o s.fromId)).add (JVal.num s.amount))) k
          = some (JVal.num (q + (if s.fromId = k then s.amount else 0))) := by
        by_cases hf : s.fromId = k
        · subst hf
          rw [hk, jget_jset_self, if_pos rfl]
          rfl
        · rw [jget_jset_of_ne o _ hf, hk, if_neg hf, add_zero]
      have hone : jget (applyOne o s) k
          = some (JVal.num ((q + (if s.fromId = k then s.amount else 0))
              - (if s.toId = k then s.amount else 0))) := by
        simp only [applyOne]
        by_cases ht : s.toId = k
        · subst ht
          rw [hb1, jget_jset_self, if_pos rfl]
          rfl
        · rw [jget_jset_of_ne _ _ ht, hb1, if_neg ht, sub_zero]
      rw [ih _ _ _ hone]
      congr 2
      rw [paidTo_cons, paidFrom_cons]
      ring

/-! ## Classification lemmas -/

theorem foldl_classifyStep_congr (w w2 : Obj) : ∀ (ks : List String),
    (∀ k ∈ ks, jget w k = jget w2 k) → ∀ acc : List Party × List Party,
    ks.foldl (classifyStep w) acc = ks.foldl (classifyStep w2) acc := by
  intro ks
  induction ks with
  | nil => intro _ acc; rfl
  | cons k ks ih =>
      intro h acc
      rw [List.foldl_cons, List.foldl_cons,
        show classifyStep w acc k = classifyStep w2 acc k from by
          rw [classifyStep, classifyStep, h k (List.mem_cons_self k ks)]]
      exact ih (fun x hx => h x (List.mem_cons_of_mem _ hx)) _

theorem classifyStep_num {w : Obj} {k : String} {q : ℚ}
    (h : jundef (jget w k) = JVal.num q) (acc : List Party × List Party) :
    classifyStep w acc k
      = if q > (0.01 : ℚ) then (acc.1 ++ [⟨k, q⟩], acc.2)
        else if q < -(0.01 : ℚ) then (acc.1, acc.2 ++ [⟨k, |q|⟩])
        else acc := by
  rw [classifyStep, h]

theorem classifyStep_nan {w : Obj} {k : String}
    (h : jundef (jget w k) = JVal.nan) (acc : List Party × List Party) :
    classifyStep w acc k = acc := by
  rw [classifyStep, h]

theorem creditorPick_num (k : String) (q : ℚ) :
    creditorPick (k, JVal.num q)
      = if q > (0.01 : ℚ) then some ⟨k, q⟩ else none := rfl

theorem creditorPick_nan (k : String) :
    creditorPick (k, JVal.nan) = none := rfl

theorem debtorPick_num (k : String) (q : ℚ) :
    debtorPick (k, JVal.num q)
      = if q > (0.01 : ℚ) then none
        else if q < -(0.01 : ℚ) then some ⟨k, |q|⟩ else none := rfl

theorem debtorPick_nan (k : String) :
    debtorPick (k, JVal.nan) = none := rfl

theorem classifyStep_acc (w : Obj) (acc : List Party × List Party)
    (k : String) :
    classifyStep w acc k
      = (acc.1 ++ (classifyStep w ([], []) k).1,
          acc.2 ++ (classifyStep w ([], []) k).2) := by
  cases h : jundef (jget w k) with
  | num q =>
      simp only [classifyStep_num h]
      split_ifs <;> simp
  | nan =>
      simp only [classifyStep_nan h]
      simp

theorem classify_fold_append (w : Obj) : ∀ (ks : List String)
    (acc : List Party × List Party),
    ks.foldl (classifyStep w) acc
      = (acc.1 ++ (ks.foldl (classifyStep w) ([], [])).1,
          acc.2 ++ (ks.foldl (classifyStep w) ([], [])).2) := by
  intro ks
  induction ks with
  | nil => intro acc; simp
  | cons k ks ih =>
      intro acc
      rw [List.foldl_cons, List.foldl_cons, ih (classifyStep w acc k),
        ih (classifyStep w ([], []) k), classifyStep_acc w acc k]
      simp [List.append_assoc]

theorem classify_eq : ∀ {w : Obj}, wfObj w →
    classify w = (creditorsOf w, debtorsOf w) := by
  intro w
  induction w with
  | nil => intro _; rfl
  | cons kv rest ih =>
      intro hwf
      obtain ⟨k, v⟩ := kv
      have hcongr : ∀ k2 ∈ jkeys rest,
          jget ((k, v) :: rest) k2 = jget rest k2 := by
        intro k2 hk2
        apply jget_cons_of_ne
        intro hh
        exact wf_head_not_mem hwf (hh ▸ hk2)
      rw [classify, jkeys_cons, List.foldl_cons,
        foldl_classifyStep_congr ((k, v) :: rest) rest (jkeys rest) hcongr,
        classify_fold_append rest (jkeys rest)]
      have hrest : (jkeys rest).foldl (classifyStep rest) ([], [])
          = (creditorsOf rest, debtorsOf rest) := by
        rw [← classify]
        exact ih (wf_cons hwf)
      rw [hrest]
      have hj : jundef (jget ((k, v) :: rest) k) = v := by
        rw [jget, if_pos rfl]
        rfl
      cases v with
      | num q =>
          simp only [classifyStep_num hj]
          by_cases h1 : q > (0.01 : ℚ)
          · rw [if_pos h1]
            simp only [creditorsOf, debtorsOf, List.filterMap_cons,
              creditorPick_num, debtorPick_num, if_pos h1]
            simp
          · rw [if_neg h1]
            by_cases h2 : q < -(0.01 : ℚ)
            · rw [if_pos h2]
              simp only [creditorsOf, debtorsOf, List.filterMap_cons,
                creditorPick_num, debtorPick_num, if_neg h1, if_pos h2]
              simp
            · rw [if_neg h2]
              simp only [creditorsOf, debtorsOf, List.filterMap_cons,
                creditorPick_num, debtorPick_num, if_neg h1, if_neg h2]
              simp
      | nan =>
          simp only [classifyStep_nan hj]
          simp only [creditorsOf, debtorsOf, List.filterMap_cons,
            creditorPick_nan, debtorPick_nan]
          simp

theorem mem_creditorsOf {w : Obj} {x : Party} :
    x ∈ creditorsOf w
      ↔ ∃ q : ℚ, (x.id, JVal.num q) ∈ w ∧ (0.01 : ℚ) < q ∧ x.amount = q := by
  rw [creditorsOf, List.mem_filterMap]
  constructor
  · rintro ⟨⟨k, v⟩, hkv, hf⟩
    cases v with
    | num q =>
        rw [creditorPick_num] at hf
        split_ifs at hf with h
        injection hf with hf
        refine ⟨q, ?_, h, ?_⟩
        · rw [← hf]; exact hkv
        · rw [← hf]
    | nan => rw [creditorPick_nan] at hf; exact absurd hf (by simp)
  · rintro ⟨q, hmem, hq, hamt⟩
    refine ⟨(x.id, JVal.num q), hmem, ?_⟩
    rw [creditorPick_num, if_pos hq]
    cases x with
    | mk i a => simp only at hamt; rw [hamt]

theorem mem_debtorsOf {w : Obj} {x : Party} :
    x ∈ debtorsOf w
      ↔ ∃ q : ℚ, (x.id, JVal.num q) ∈ w ∧ q < -(0.01 : ℚ)
          ∧ x.amount = |q| := by
  rw [debtorsOf, List.mem_filterMap]
  constructor
  · rintro ⟨⟨k, v⟩, hkv, hf⟩
    cases v with
    | num q =>
        rw [debtorPick_num] at hf
        by_cases h1 : q > (0.01 : ℚ)
        · rw [if_pos h1] at hf
          exact absurd hf (by simp)
        · rw [if_neg h1] at hf
          by_cases h2 : q < -(0.01 : ℚ)
          · rw [if_pos h2] at hf
            injection hf with hf
            refine ⟨q, ?_, h2, ?_⟩
            · rw [← hf]; exact hkv
            · rw [← hf]
          · rw [if_neg h2] at hf
            exact absurd hf (by simp)
    | nan => rw [debtorPick_nan] at hf; exact absurd hf (by simp)
  · rintro ⟨q, hmem, hq, hamt⟩
    refine ⟨(x.id, JVal.num q), hmem, ?_⟩
    have h1 : ¬ q > (0.01 : ℚ) := by linarith
    rw [debtorPick_num, if_neg h1, if_pos hq]
    cases x with
    | mk i a => simp only at hamt; rw [hamt]

theorem creditorsOf_ids_sublist (w : Obj) :
    ((creditorsOf w).map Party.id).Sublist (jkeys w) := by
  induction w with
  | nil => simp [creditorsOf, jkeys]
  | cons kv rest ih =>
      rw [jkeys_cons]
      cases kv with
      | mk k v =>
          cases v with
          | num q =>
              by_cases h : q > (0.01 : ℚ)
              · simp only [creditorsOf, List.filterMap_cons,
                  creditorPick_num, if_pos h, List.map_cons]
                exact (ih).cons₂ k
              · simp only [creditorsOf, List.filterMap_cons,
                  creditorPick_num, if_neg h]
                exact (ih).cons k
          | nan =>
              simp only [creditorsOf, List.filterMap_cons, creditorPick_nan]
              exact (ih).cons k

theorem debtorsOf_ids_sublist (w : Obj) :
    ((debtorsOf w).map Party.id).Sublist (jkeys w) := by
  induction w with
  | nil => simp [debtorsOf, jkeys]
  | cons kv rest ih =>
      rw [jkeys_cons]
      cases kv with
      | mk k v =>
          cases v with
          | num q =>
              by_cases h1 : q > (0.01 : ℚ)
              · simp only [debtorsOf, List.filterMap_cons, debtorPick_num,
                  if_pos h1]
                exact (ih).cons k
              · by_cases h2 : q < -(0.01 : ℚ)
                · simp only [debtorsOf, List.filterMap_cons, debtorPick_num,
                    if_neg h1, if_pos h2, List.map_cons]
                  exact (ih).cons₂ k
                · simp only [debtorsOf, List.filterMap_cons, debtorPick_num,
                    if_neg h1, if_neg h2]
                  exact (ih).cons k
          | nan =>
              simp only [debtorsOf, List.filterMap_cons, debtorPick_nan]
              exact (ih).cons k

theorem creditorsOf_ids_nodup {w : Obj} (hwf : wfObj w) :
    ((creditorsOf w).map Party.id).Nodup :=
  (creditorsOf_ids_sublist w).nodup hwf

theorem debtorsOf_ids_nodup {w : Obj} (hwf : wfObj w) :
    ((debtorsOf w).map Party.id).Nodup :=
  (debtorsOf_ids_sublist w).nodup hwf

theorem creditor_debtor_ne {w : Obj} (hwf : wfObj w) {x y : Party}
    (hx : x ∈ creditorsOf w) (hy : y ∈ debtorsOf w) : x.id ≠ y.id := by
  obtain ⟨qx, hmx, hqx, _⟩ := mem_creditorsOf.mp hx
  obtain ⟨qy, hmy, hqy, _⟩ := mem_debtorsOf.mp hy
  intro he
  have h1 := jget_eq_of_mem hwf hmx
  have h2 := jget_eq_of_mem hwf hmy
  rw [he, h2] at h1
  injection h1 with h1
  injection h1 with h1
  linarith

theorem creditorsOf_amounts {w : Obj} (hc : centMult w) :
    ∀ x ∈ creditorsOf w, centQ x.amount ∧ 0 ≤ x.amount := by
  intro x hx
  obtain ⟨q, hmem, hq, hamt⟩ := mem_creditorsOf.mp hx
  have hcv := hc _ hmem
  rw [centVal] at hcv
  rw [hamt]
  exact ⟨hcv, by linarith⟩

theorem debtorsOf_amounts {w : Obj} (hc : centMult w) :
    ∀ x ∈ debtorsOf w, centQ x.amount ∧ 0 ≤ x.amount := by
  intro x hx
  obtain ⟨q, hmem, hq, hamt⟩ := mem_debtorsOf.mp hx
  have hcv := hc _ hmem
  rw [centVal] at hcv
  rw [hamt]
  exact ⟨centQ_abs hcv, abs_nonneg q⟩

/-! ## Sorting lemmas -/

theorem sortParties_perm (l : List Party) : (sortParties l).Perm l :=
  List.mergeSort_perm l _

theorem mem_sortParties {l : List Party} {x : Party} :
    x ∈ sortParties l ↔ x ∈ l :=
  List.mem_mergeSort

theorem sortParties_sorted (l : List Party) :
    List.Pairwise (fun a b : Party => b.amount ≤ a.amount)
      (sortParties l) := by
  have h := @List.sorted_mergeSort Party
    (fun a b : Party => decide (b.amount ≤ a.amount))
    (fun a b c hab hbc => by
      simp only [decide_eq_true_eq] at hab hbc ⊢
      exact le_trans hbc hab)
    (fun a b => by
      rcases le_total b.amount a.amount with h | h <;> simp [h]) l
  exact h.imp (fun hab => by simpa using hab)

theorem sortParties_ids_nodup {l : List Party}
    (h : (l.map Party.id).Nodup) :
    ((sortParties l).map Party.id).Nodup :=
  (((sortParties_perm l).map Party.id).nodup_iff).mpr h

theorem resolveSettlements_eq (b : Obj) (persons : List Person)
    (hwf : wfObj b) :
    resolveSettlements b persons
      = resolveLoop (sortParties (creditorsOf b))
          (sortParties (debtorsOf b)) := by
  simp only [resolveSettlements]
  rw [jspread_of_wf hwf, classify_eq hwf]

theorem wf_jspread (o : Obj) : wfObj (jspread o) := by
  rw [jspread]
  have haux : ∀ (l : Obj) (acc : Obj), wfObj acc →
      wfObj (l.foldl (fun a kv => jset a kv.1 kv.2) acc) := by
    intro l
    induction l with
    | nil => intro acc h; exact h
    | cons kv rest ih =>
        intro acc h
        exact ih _ (wf_jset kv.1 kv.2 h)
  exact haux o [] (by simp [wfObj, jkeys])

theorem jget_map_val {α β : Type} (f : α → β) :
    ∀ (o : List (String × α)) (k : String),
    jget (o.map (fun kv => (kv.1, f kv.2))) k = (jget o k).map f := by
  intro o
  induction o with
  | nil => intro k; rfl
  | cons kv rest ih =>
      intro k
      by_cases h : kv.1 = k
      · simp [jget, h]
      · simp only [List.map_cons, jget, h, if_false]
        exact ih k

/-! ## NaN propagation for dangling ids -/

theorem debit_fold_nan (split : ℚ) (x : String) :
    ∀ (ps : List String) (b : Obj), jget b x = some JVal.nan →
    jget (ps.foldl (fun bb participantId =>
        jset bb participantId
          ((jundef (jget bb participantId)).sub (JVal.num split))) b) x
      = some JVal.nan := by
  intro ps
  induction ps with
  | nil => intro b h; exact h
  | cons p ps ih =>
      intro b h
      rw [List.foldl_cons]
      apply ih
      by_cases hp : p = x
      · subst hp
        rw [h, jget_jset_self]
        rfl
      · rw [jget_jset_of_ne _ _ hp]
        exact h

theorem debit_fold_absent (split : ℚ) (x : String) :
    ∀ (ps : List String) (b : Obj), jget b x = none →
      (x ∉ ps → jget (ps.foldl (fun bb participantId =>
        jset bb participantId
          ((jundef (jget bb participantId)).sub (JVal.num split))) b) x
        = none) ∧
      (x ∈ ps → jget (ps.foldl (fun bb participantId =>
        jset bb participantId
          ((jundef (jget bb participantId)).sub (JVal.num split))) b) x
        = some JVal.nan) := by
  intro ps
  induction ps with
  | nil =>
      intro b h
      exact ⟨fun _ => h, fun hx => absurd hx (by simp)⟩
  | cons p ps ih =>
      intro b h
      by_cases hp : p = x
      · subst hp
        have hset : jget (jset b p ((jundef (jget b p)).sub (JVal.num split)))
            p = some JVal.nan := by
          rw [h, jget_jset_self]
          rfl
        constructor
        · intro hx
          exact absurd (List.mem_cons_self p ps) hx
        · intro _
          rw [List.foldl_cons]
          exact debit_fold_nan split p ps _ hset
      · have hset : jget (jset b p ((jundef (jget b p)).sub (JVal.num split)))
            x = none := by
          rw [jget_jset_of_ne _ _ hp]
          exact h
        obtain ⟨ih1, ih2⟩ := ih _ hset
        constructor
        · intro hx
          rw [List.foldl_cons]
          exact ih1 (fun hh => hx (List.mem_cons_of_mem _ hh))
        · intro hx
          rcases List.mem_cons.mp hx with hh | hh
          · exact absurd hh.symm hp
          · rw [List.foldl_cons]
            exact ih2 hh

theorem processExpense_nan (e : Expense) {b : Obj} {x : String}
    (h : jget b x = some JVal.nan) :
    jget (processExpense b e) x = some JVal.nan := by
  simp only [processExpense]
  apply debit_fold_nan
  by_cases hp : e.paidBy = x
  · subst hp
    rw [h, jget_jset_self]
    rfl
  · rw [jget_jset_of_ne _ _ hp]
    exact h

theorem processExpense_absent (e : Expense) {b : Obj} {x : String}
    (h : jget b x = none) :
    (e.paidBy ≠ x ∧ x ∉ e.participants →
      jget (processExpense b e) x = none) ∧
    (e.paidBy = x ∨ x ∈ e.participants →
      jget (processExpense b e) x = some JVal.nan) := by
  simp only [processExpense]
  by_cases hp : e.paidBy = x
  · subst hp
    have hset : jget (jset b e.paidBy
        ((jundef (jget b e.paidBy)).add (JVal.num e.amount))) e.paidBy
        = some JVal.nan := by
      rw [h, jget_jset_self]
      rfl
    refine ⟨fun hh => absurd rfl hh.1, fun _ => ?_⟩
    exact debit_fold_nan _ _ e.participants _ hset
  · have hset : jget (jset b e.paidBy
        ((jundef (jget b e.paidBy)).add (JVal.num e.amount))) x = none := by
      rw [jget_jset_of_ne _ _ hp]
      exact h
    obtain ⟨h1, h2⟩ := debit_fold_absent
      (e.amount / (e.participants.length : ℚ)) x e.participants _ hset
    refine ⟨fun hh => h1 hh.2, fun hh => ?_⟩
    rcases hh with hh | hh
    · exact absurd hh hp
    · exact h2 hh

theorem expenses_fold_nan (x : String) : ∀ (es : List Expense) (b : Obj),
    jget b x = some JVal.nan →
    jget (es.foldl processExpense b) x = some JVal.nan := by
  intro es
  induction es with
  | nil => intro b h; exact h
  | cons e es ih =>
      intro b h
      rw [List.foldl_cons]
      exact ih _ (processExpense_nan e h)

theorem expenses_fold_referenced (x : String) : ∀ (es : List Expense)
    (b : Obj), jget b x = none →
    (∃ e ∈ es, e.paidBy = x ∨ x ∈ e.participants) →
    jget (es.foldl processExpense b) x = some JVal.nan := by
  intro es
  induction es with
  | nil =>
      intro b _ hex
      obtain ⟨e, he, _⟩ := hex
      exact absurd he (by simp)
  | cons e es ih =>
      intro b h hex
      rw [List.foldl_cons]
      by_cases hr : e.paidBy = x ∨ x ∈ e.participants
      · exact expenses_fold_nan x es _
          ((processExpense_absent e h).2 hr)
      · push_neg at hr
        have hnone := (processExpense_absent e h).1 hr
        obtain ⟨e2, he2, hre2⟩ := hex
        rcases List.mem_cons.mp he2 with hh | hh
        · exact absurd (hh ▸ hre2) (by rw [not_or]; exact hr)
        · exact ih _ hnone ⟨e2, hh, hre2⟩

theorem initBalances_absent {persons : List Person} {x : String}
    (hx : x ∉ persons.map Person.id) :
    jget (initBalances persons) x = none := by
  rw [initBalances]
  have haux : ∀ (l : List Person) (acc : Obj),
      (∀ p ∈ l, p.id ≠ x) → jget acc x = none →
      jget (l.foldl (fun balances person =>
        jset balances person.id (JVal.num 0)) acc) x = none := by
    intro l
    induction l with
    | nil => intro acc _ h; exact h
    | cons p l ih =>
        intro acc hne h
        rw [List.foldl_cons]
        apply ih _ (fun p2 hp2 => hne p2 (List.mem_cons_of_mem _ hp2))
        rw [jget_jset_of_ne _ _ (hne p (List.mem_cons_self p l))]
        exact h
  apply haux persons [] _ rfl
  intro p hp hh
  exact hx (hh ▸ List.mem_map_of_mem Person.id hp)

/-! ## Fueled loop -/

theorem resolveLoopFuel_eq : ∀ (fuel : Nat) (cs ds : List Party),
    cs.length + ds.length ≤ fuel →
    resolveLoopFuel fuel cs ds = resolveLoop cs ds := by
  intro fuel
  induction fuel with
  | zero =>
      intro cs ds hlen
      cases cs with
      | nil => rw [resolveLoopFuel, resolveLoop_nil_left]
      | cons c cs => simp at hlen
  | succ n ih =>
      intro cs ds hlen
      cases cs with
      | nil => rw [resolveLoopFuel, resolveLoop_nil_left]
      | cons c cs =>
          cases ds with
          | nil => rw [resolveLoopFuel, resolveLoop_nil_right]
          | cons d ds =>
              have hnext : (if c.amount - min c.amount d.amount < (0.01 : ℚ)
                    then cs
                    else ⟨c.id, c.amount - min c.amount d.amount⟩ ::
                      cs).length
                  + (if d.amount - min c.amount d.amount < (0.01 : ℚ) then ds
                      else ⟨d.id, d.amount - min c.amount d.amount⟩ ::
                        ds).length ≤ n := by
                have := next_length_lt c cs d ds
                simp only [List.length_cons] at this hlen ⊢
                omega
              rw [resolveLoop_cons]
              simp only [resolveLoopFuel]
              rw [ih _ _ hnext]

/-! ## Spec-side rounding evaluation -/

theorem ratFloor_eq_intFloor (q : ℚ) : Rat.floor q = ⌊q⌋ := by
  rw [Rat.floor_def', ← Rat.floor_def]

theorem ratFloor_eq_of (q : ℚ) (z : ℤ) (h1 : (z : ℚ) ≤ q)
    (h2 : q < z + 1) : Rat.floor q = z := by
  rw [ratFloor_eq_intFloor]
  exact Int.floor_eq_iff.mpr ⟨h1, h2⟩

theorem roundHalfAway_neg_eval (q : ℚ) (z : ℤ) (hq : ¬ 0 ≤ q)
    (h1 : (z : ℚ) ≤ -(q * 100) + 1/2) (h2 : -(q * 100) + 1/2 < z + 1) :
    roundHalfAway q = (-z : ℤ) / 100 := by
  rw [roundHalfAway, if_neg hq, ratFloor_eq_of _ z h1 h2]

theorem roundHalfEven_eval (q : ℚ) (f : ℤ) (hf1 : (f : ℚ) ≤ q * 100)
    (hf2 : q * 100 < f + 1) :
    roundHalfEven q
      = ((if q * 100 - (f : ℚ) < 1/2 then f
          else if (1 : ℚ)/2 < q * 100 - (f : ℚ) then f + 1
          else if 2 ∣ f then f else f + 1 : ℤ) : ℚ) / 100 := by
  rw [roundHalfEven]
  simp only [ratFloor_eq_of (q * 100) f hf1 hf2]

theorem roundHalfAway_pos_eval (q : ℚ) (z : ℤ) (hq : 0 ≤ q)
    (h1 : (z : ℚ) ≤ q * 100 + 1/2) (h2 : q * 100 + 1/2 < z + 1) :
    roundHalfAway q = (z : ℚ) / 100 := by
  rw [roundHalfAway, if_pos hq, ratFloor_eq_of _ z h1 h2]

/-! ## Concrete evaluations -/

theorem calcDrift_eval : calculateBalances tripDrift =
    [("X", JVal.num (3/100)), ("Y", JVal.num (-(1/100))),
      ("A", JVal.num 0), ("B", JVal.num 0), ("C", JVal.num 0),
      ("D", JVal.num 0), ("E", JVal.num 0), ("F", JVal.num 0)] := by
  simp only [calculateBalances, tripDrift, initBalances, processExpense,
    jset, jget, jundef, JVal.add, JVal.sub, JVal.round2v,
    List.foldl_cons, List.foldl_nil, List.map_cons, List.map_nil,
    List.length_cons, List.length_nil, String.reduceEq, reduceIte]
  norm_num [round2_eq_of (3/100) 3 (by norm_num) (by norm_num),
    round2_eq_of (-(1/100)) (-1) (by norm_num) (by norm_num),
    round2_eq_of (-(1/300)) 0 (by norm_num) (by norm_num),
    round2_eq_of 0 0 (by norm_num) (by norm_num)]

theorem resolveDrift_eval :
    resolveSettlements (calculateBalances tripDrift) tripDrift.persons
      = [] := by
  rw [calcDrift_eval, resolveSettlements_eq _ _ (by decide)]
  have hc : creditorsOf
      [("X", JVal.num (3/100)), ("Y", JVal.num (-(1/100))),
        ("A", JVal.num 0), ("B", JVal.num 0), ("C", JVal.num 0),
        ("D", JVal.num 0), ("E", JVal.num 0), ("F", JVal.num 0)]
      = [⟨"X", 3/100⟩] := by
    norm_num [creditorsOf, creditorPick, List.filterMap_cons]
  have hd : debtorsOf
      [("X", JVal.num (3/100)), ("Y", JVal.num (-(1/100))),
        ("A", JVal.num 0), ("B", JVal.num 0), ("C", JVal.num 0),
        ("D", JVal.num 0), ("E", JVal.num 0), ("F", JVal.num 0)]
      = [] := by
    norm_num [debtorsOf, debtorPick, List.filterMap_cons]
  rw [hc, hd]
  norm_num [sortParties, List.mergeSort, resolveLoop_nil_right]

theorem calcEmpty_eval : calculateBalances tripEmpty =
    [("A", JVal.num 3), ("B", JVal.num 2)] := by
  simp only [calculateBalances, tripEmpty, initBalances, processExpense,
    jset, jget, jundef, JVal.add, JVal.sub, JVal.round2v,
    List.foldl_cons, List.foldl_nil, List.map_cons, List.map_nil,
    List.length_cons, List.length_nil, String.reduceEq, reduceIte]
  norm_num [round2_eq_of 3 300 (by norm_num) (by norm_num),
    round2_eq_of 2 200 (by norm_num) (by norm_num)]

theorem calcEmptyFiltered_eval :
    calculateBalances tripEmpty.filterNonEmpty =
      [("A", JVal.num (-2)), ("B", JVal.num 2)] := by
  have hf : tripEmpty.filterNonEmpty =
      { id := "t2", name := "empty"
        persons := [⟨"A", "A"⟩, ⟨"B", "B"⟩]
        expenses := [⟨"e2", "e2", 2, "B", ["A"]⟩] } := by
    simp [Trip.filterNonEmpty, tripEmpty, List.filter]
  rw [hf]
  simp only [calculateBalances, initBalances, processExpense,
    jset, jget, jundef, JVal.add, JVal.sub, JVal.round2v,
    List.foldl_cons, List.foldl_nil, List.map_cons, List.map_nil,
    List.length_cons, List.length_nil, String.reduceEq, reduceIte]
  norm_num [round2_eq_of (-2) (-200) (by norm_num) (by norm_num),
    round2_eq_of 2 200 (by norm_num) (by norm_num)]

theorem calcHalf_eval : calculateBalances tripHalf =
    [("A", JVal.num (3/4)), ("B", JVal.num (-(37/100))),
      ("C", JVal.num (-(37/100)))] := by
  simp only [calculateBalances, tripHalf, initBalances, processExpense,
    jset, jget, jundef, JVal.add, JVal.sub, JVal.round2v,
    List.foldl_cons, List.foldl_nil, List.map_cons, List.map_nil,
    List.length_cons, List.length_nil, String.reduceEq, reduceIte]
  norm_num [round2_eq_of (3/4) 75 (by norm_num) (by norm_num),
    round2_eq_of (-(3/8)) (-37) (by norm_num) (by norm_num)]

theorem specAwayHalf_eval : specBalancesWith roundHalfAway tripHalf =
    [("A", JVal.num (3/4)), ("B", JVal.num (-(38/100))),
      ("C", JVal.num (-(38/100)))] := by
  simp only [specBalancesWith, tripHalf, rawBalance, rawBalanceList,
    expenseTerm, List.map_cons, List.map_nil, List.sum_cons, List.sum_nil,
    List.count_cons, List.count_nil, List.length_cons, List.length_nil,
    beq_iff_eq, String.reduceEq, reduceIte]
  norm_num [roundHalfAway_pos_eval (3/4) 75 (by norm_num) (by norm_num)
      (by norm_num),
    roundHalfAway_neg_eval (-(3/8)) 38 (by norm_num) (by norm_num)
      (by norm_num)]

theorem specEvenHalf_eval : specBalancesWith roundHalfEven tripHalf =
    [("A", JVal.num (3/4)), ("B", JVal.num (-(38/100))),
      ("C", JVal.num (-(38/100)))] := by
  simp only [specBalancesWith, tripHalf, rawBalance, rawBalanceList,
    expenseTerm, List.map_cons, List.map_nil, List.sum_cons, List.sum_nil,
    List.count_cons, List.count_nil, List.length_cons, List.length_nil,
    beq_iff_eq, String.reduceEq, reduceIte]
  norm_num [roundHalfEven_eval (3/4) 75 (by norm_num) (by norm_num),
    roundHalfEven_eval (-(3/8)) (-38) (by norm_num) (by norm_num)]

theorem calcGhost_eval : calculateBalances tripGhost =
    [("A", JVal.num (-5)), ("G", JVal.nan)] := by
  simp only [calculateBalances, tripGhost, initBalances, processExpense,
    jset, jget, jundef, JVal.add, JVal.sub, JVal.round2v,
    List.foldl_cons, List.foldl_nil, List.map_cons, List.map_nil,
    List.length_cons, List.length_nil, String.reduceEq, reduceIte]
  norm_num [round2_eq_of (-5) (-500) (by norm_num) (by norm_num)]

theorem resolveFrac_eval : resolveSettlements balFrac []
    = [⟨"Y", "X", 1/100⟩] := by
  rw [resolveSettlements_eq _ _ (by decide)]
  have hc : creditorsOf balFrac = [⟨"X", 7/500⟩] := by
    norm_num [creditorsOf, creditorPick, balFrac, List.filterMap_cons]
  have hd : debtorsOf balFrac = [⟨"Y", 7/500⟩] := by
    norm_num [debtorsOf, debtorPick, balFrac, List.filterMap_cons]
  rw [hc, hd]
  norm_num [sortParties, List.mergeSort, resolveLoop_cons,
    resolveLoop_nil_left, resolveLoop_nil_right,
    round2_eq_of (7/500) 1 (by norm_num) (by norm_num)]

theorem resolveCent_eval : resolveSettlements balCent []
    = [⟨"Y", "X", 5/100⟩] := by
  rw [resolveSettlements_eq _ _ (by decide)]
  have hc : creditorsOf balCent = [⟨"X", 5/100⟩] := by
    norm_num [creditorsOf, creditorPick, balCent, List.filterMap_cons]
  have hd : debtorsOf balCent = [⟨"Y", 5/100⟩] := by
    norm_num [debtorsOf, debtorPick, balCent, List.filterMap_cons]
  rw [hc, hd]
  norm_num [sortParties, List.mergeSort, resolveLoop_cons,
    resolveLoop_nil_left, resolveLoop_nil_right,
    round2_eq_of (5/100) 5 (by norm_num) (by norm_num),
    round2_eq_of (1/20) 5 (by norm_num) (by norm_num)]

theorem resolveBig_eval : resolveSettlements balBig []
    = [⟨"Y", "X", 5⟩] := by
  rw [resolveSettlements_eq _ _ (by decide)]
  have hc : creditorsOf balBig = [⟨"X", 5⟩] := by
    norm_num [creditorsOf, creditorPick, balBig, List.filterMap_cons]
  have hd : debtorsOf balBig = [⟨"Y", 5⟩] := by
    norm_num [debtorsOf, debtorPick, balBig, List.filterMap_cons]
  rw [hc, hd]
  norm_num [sortParties, List.mergeSort, resolveLoop_cons,
    resolveLoop_nil_left, resolveLoop_nil_right,
    round2_eq_of 5 500 (by norm_num) (by norm_num)]

/-! ## Claims -/

/-- Claim C1, counterexample: on `tripDrift` (eight persons, three one-cent
expenses fronted by X) the per-person rounding pass drifts the balance sum
to `0.02`, which is not within `ε = 0.01` of 0, so the zero-sum invariant
fails as stated. -/
theorem claim_C1_counterexample :
    sumValues (calculateBalances tripDrift) = 1/50 ∧
      ¬ |sumValues (calculateBalances tripDrift)| ≤ (0.01 : ℚ) := by
  have h : sumValues (calculateBalances tripDrift) = 1/50 := by
    rw [calcDrift_eval]
    norm_num [sumValues, qOf]
  refine ⟨h, ?_⟩
  rw [h, show |((1 : ℚ)/50)| = 1/50 from abs_of_pos (by norm_num)]
  norm_num

/-- Claim C1, amended: for a trip with distinct person ids, valid expense
references and non-empty participant lists, the sum of the values of
`calculateBalances` is within `n · ε/2` of 0, where `n` is the number of
persons: the pre-rounding sum is exactly 0 and each of the `n` entries is
rounded by at most half a cent. -/
theorem claim_C1_amended (t : Trip) (hwf : t.wfPersons)
    (href : t.validRefs) (hne : t.nonEmptyParts) :
    |sumValues (calculateBalances t)| ≤ (t.persons.length : ℚ) / 200 := by
  rw [calculateBalances_eq_formula t hwf href,
    sumValues_persons_map t.persons (fun s => round2 (rawBalance t s))]
  have hzero : (t.persons.map
      (fun p => rawBalanceList t.expenses p.id)).sum = 0 :=
    sum_rawBalanceList t.persons hwf t.expenses
      (fun e he => ⟨(href e he).1, (href e he).2, hne e he⟩)
  have hsplit : t.persons.map (fun p => round2 (rawBalance t p.id))
      = t.persons.map (fun p =>
          (round2 (rawBalanceList t.expenses p.id)
            - rawBalanceList t.expenses p.id)
          + rawBalanceList t.expenses p.id) := by
    apply List.map_congr_left
    intro p _
    rw [rawBalance]
    ring
  rw [hsplit, map_sum_add, hzero, add_zero]
  calc |(t.persons.map (fun p =>
        round2 (rawBalanceList t.expenses p.id)
          - rawBalanceList t.expenses p.id)).sum|
      ≤ (t.persons.map (fun p =>
          |round2 (rawBalanceList t.expenses p.id)
            - rawBalanceList t.expenses p.id|)).sum :=
        abs_map_sum_le _ _
    _ ≤ (t.persons.length : ℚ) * (1/200) :=
        map_sum_le_length_mul _ _ _ (fun p _ => abs_round2_sub_le _)
    _ = (t.persons.length : ℚ) / 200 := by ring

/-- Claim C1, witness: the amended bound applied to the spec's reference
scenario. -/
theorem claim_C1_witness :
    |sumValues (calculateBalances tripScenario)|
      ≤ (tripScenario.persons.length : ℚ) / 200 :=
  claim_C1_amended tripScenario (by decide) (by decide) (by decide)

/-- Claim C3, counterexample: `tripEmpty` contains an expense with an
empty participant list; `calculateBalances` still credits the full amount
to the payer, so the balances are not those computed from the remaining
expenses alone. -/
theorem claim_C3_counterexample :
    calculateBalances tripEmpty
      ≠ calculateBalances tripEmpty.filterNonEmpty := by
  rw [calcEmpty_eval, calcEmptyFiltered_eval]
  intro h
  simp only [List.cons.injEq, Prod.mk.injEq, JVal.num.injEq] at h
  exact absurd h.1.2 (by norm_num)

/-- Claim C3, amended: with valid references, an empty-participant expense
does not raise and produces no infinite or `NaN` balance, but it is not a
full no-op skip: only the debit side vanishes, the full amount is still
credited to its payer.  The result equals the balances over the non-empty
expenses plus the empty expenses' credits to their payers. -/
theorem claim_C3_amended (t : Trip) (hwf : t.wfPersons)
    (href : t.validRefs) (_hempty : ∃ e ∈ t.expenses, e.participants = []) :
    (∀ kv ∈ calculateBalances t, kv.2 ≠ JVal.nan) ∧
    calculateBalances t = t.persons.map (fun p =>
      (p.id, JVal.num (round2 (rawBalance t.filterNonEmpty p.id
        + emptyCredit t p.id)))) := by
  have hform := calculateBalances_eq_formula t hwf href
  constructor
  · intro kv hkv
    rw [hform] at hkv
    obtain ⟨p, _, rfl⟩ := List.mem_map.mp hkv
    simp
  · rw [hform]
    apply List.map_congr_left
    intro p _
    rw [rawBalance_split t p.id]

/-- Claim C3, witness: the amended description evaluated on `tripEmpty`. -/
theorem claim_C3_witness :
    calculateBalances tripEmpty = tripEmpty.persons.map (fun p =>
      (p.id, JVal.num (round2 (rawBalance tripEmpty.filterNonEmpty p.id
        + emptyCredit tripEmpty p.id)))) :=
  (claim_C3_amended tripEmpty (by decide) (by decide) (by decide)).2

/-- Claim C4, counterexample: on the balance mapping `balFrac` (values
`±0.014`, not whole cents) the resolver emits a settlement whose recorded
amount `round2 0.014 = 0.01` is not greater than `0.01`. -/
theorem claim_C4_counterexample :
    (⟨"Y", "X", 1/100⟩ : Settlement) ∈ resolveSettlements balFrac [] ∧
      (1 : ℚ)/100 ≤ 0.01 := by
  rw [resolveFrac_eval]
  exact ⟨List.mem_singleton.mpr rfl, by norm_num⟩

/-- Claim C4, amended: when every stored balance is a whole number of
cents — as `calculateBalances` produces on valid trips — every emitted
settlement amount is strictly greater than `0.01`. -/
theorem claim_C4_amended (balances : Obj) (persons : List Person)
    (hwf : wfObj balances) (hcent : centMult balances) :
    ∀ s ∈ resolveSettlements balances persons, (0.01 : ℚ) < s.amount := by
  intro s hs
  rw [resolveSettlements_eq _ _ hwf] at hs
  have hcc : ∀ x ∈ sortParties (creditorsOf balances), centQ x.amount :=
    fun x hx => (creditorsOf_amounts hcent x (mem_sortParties.mp hx)).1
  have hcd : ∀ x ∈ sortParties (debtorsOf balances), centQ x.amount :=
    fun x hx => (debtorsOf_amounts hcent x (mem_sortParties.mp hx)).1
  exact (loop_amount_gt ((sortParties (creditorsOf balances)).length
    + (sortParties (debtorsOf balances)).length) _ _ le_rfl hcc hcd
    s hs).1

/-- Claim C4, witness: the amended bound applied to the whole-cent mapping
`balCent`, whose single settlement has amount `0.05 > 0.01`. -/
theorem claim_C4_witness : (0.01 : ℚ) < (5 : ℚ)/100 ∧ centMult balCent := by
  have hcent : centMult balCent := by
    intro kv hkv
    simp only [balCent, List.mem_cons] at hkv
    rcases hkv with h | h | h
    · rw [h]
      exact (centQ_iff _).mpr ⟨5, by norm_num⟩
    · rw [h]
      exact (centQ_iff _).mpr ⟨-5, by norm_num⟩
    · exact absurd h (List.not_mem_nil kv)
  refine ⟨?_, hcent⟩
  have hmem : (⟨"Y", "X", 5/100⟩ : Settlement)
      ∈ resolveSettlements balCent [] := by
    rw [resolveCent_eval]
    exact List.mem_singleton.mpr rfl
  exact claim_C4_amended balCent [] (by decide) hcent _ hmem

/-- Claim C5, counterexample: on `tripHalf` the balance `-0.375` has the
exact half `-37.5` at scale 100; `Math.round` takes it to `-37` (halves go
toward positive infinity) while round-half-away-from-zero and
round-half-to-even both give `-38`, so the code matches neither permitted
rounding mode. -/
theorem claim_C5_counterexample :
    calculateBalances tripHalf ≠ specBalancesWith roundHalfAway tripHalf ∧
      calculateBalances tripHalf
        ≠ specBalancesWith roundHalfEven tripHalf := by
  rw [calcHalf_eval, specAwayHalf_eval, specEvenHalf_eval]
  constructor <;> intro h <;>
    simp only [List.cons.injEq, Prod.mk.injEq, JVal.num.injEq] at h <;>
    exact absurd h.2.1.2 (by norm_num)

/-- Claim C5, amended: on valid trips `calculateBalances` equals the
spec's description of the algorithm — start every person at 0, credit the
payer, debit each participant's share, round at scale 100 — with the
rounding mode `⌊x·100 + 1/2⌋ / 100`, i.e. round-half-up toward positive
infinity (JavaScript `Math.round`), not half-away-from-zero or
half-to-even. -/
theorem claim_C5_amended (t : Trip) (hwf : t.wfPersons)
    (href : t.validRefs) (_hne : t.nonEmptyParts) :
    calculateBalances t = specBalancesWith round2 t :=
  calculateBalances_eq_formula t hwf href

/-- Claim C5, witness: the amended equality on the spec's reference
scenario. -/
theorem claim_C5_witness :
    calculateBalances tripScenario = specBalancesWith round2 tripScenario :=
  claim_C5_amended tripScenario (by decide) (by decide) (by decide)

/-- Claim C6, counterexample: on `tripGhost` the expense is paid by id
`"G"`, which belongs to no person; the entry created under `"G"` holds
`NaN` (from `undefined + 5`), not the credited amount `5`. -/
theorem claim_C6_counterexample :
    jget (calculateBalances tripGhost) "G" = some JVal.nan ∧
      jget (calculateBalances tripGhost) "G" ≠ some (JVal.num 5) := by
  have h : jget (calculateBalances tripGhost) "G" = some JVal.nan := by
    rw [calcGhost_eval]
    simp only [jget, String.reduceEq, reduceIte]
  refine ⟨h, ?_⟩
  rw [h]
  simp

/-- Claim C6, amended: an id referenced by some expense but belonging to
no person still receives an entry, without failing — but its value is
`NaN` (the first `undefined ± x` update), not the credited or debited
amount. -/
theorem claim_C6_amended (t : Trip) (x : String)
    (hpersons : t.persons ≠ [])
    (hx : x ∉ t.persons.map Person.id)
    (href : ∃ e ∈ t.expenses, e.paidBy = x ∨ x ∈ e.participants) :
    jget (calculateBalances t) x = some JVal.nan := by
  rw [calculateBalances,
    if_neg (fun h => hpersons (List.length_eq_zero.mp h)), jget_map_val,
    expenses_fold_referenced x t.expenses _ (initBalances_absent hx) href]
  rfl

/-- Claim C6, witness: the amended statement evaluated on `tripGhost`. -/
theorem claim_C6_witness :
    jget (calculateBalances tripGhost) "G" = some JVal.nan :=
  claim_C6_amended tripGhost "G" (by decide) (by decide) (by decide)

/-- Claim C7, confirmed: `resolveSettlements` classifies a person as
creditor exactly when the stored balance exceeds `0.01` and as debtor
exactly when it is below `-0.01` (taking the absolute value), sorts both
working lists descending by amount (a permutation of the classified
lists), and each loop iteration pairs the heads of the two lists with
`payment = min(creditor.amount, debtor.amount)`, records the settlement
only above the threshold, and decrements both heads by the payment. -/
theorem claim_C7 :
    (∀ (balances : Obj) (persons : List Person), wfObj balances →
      resolveSettlements balances persons
          = resolveLoop (sortParties (creditorsOf balances))
              (sortParties (debtorsOf balances)) ∧
        classify balances = (creditorsOf balances, debtorsOf balances) ∧
        (∀ x : Party, x ∈ creditorsOf balances ↔ ∃ q : ℚ,
          (x.id, JVal.num q) ∈ balances ∧ (0.01 : ℚ) < q ∧ x.amount = q) ∧
        (∀ x : Party, x ∈ debtorsOf balances ↔ ∃ q : ℚ,
          (x.id, JVal.num q) ∈ balances ∧ q < -(0.01 : ℚ)
            ∧ x.amount = |q|) ∧
        List.Pairwise (fun a b : Party => b.amount ≤ a.amount)
          (sortParties (creditorsOf balances)) ∧
        List.Pairwise (fun a b : Party => b.amount ≤ a.amount)
          (sortParties (debtorsOf balances)) ∧
        (sortParties (creditorsOf balances)).Perm (creditorsOf balances) ∧
        (sortParties (debtorsOf balances)).Perm (debtorsOf balances)) ∧
    ∀ (c : Party) (cs : List Party) (d : Party) (ds : List Party),
      resolveLoop (c :: cs) (d :: ds)
        = if min c.amount d.amount > (0.01 : ℚ)
          then (⟨d.id, c.id, round2 (min c.amount d.amount)⟩ :
              Settlement) ::
            resolveLoop
              (if c.amount - min c.amount d.amount < (0.01 : ℚ) then cs
                else ⟨c.id, c.amount - min c.amount d.amount⟩ :: cs)
              (if d.amount - min c.amount d.amount < (0.01 : ℚ) then ds
                else ⟨d.id, d.amount - min c.amount d.amount⟩ :: ds)
          else resolveLoop
              (if c.amount - min c.amount d.amount < (0.01 : ℚ) then cs
                else ⟨c.id, c.amount - min c.amount d.amount⟩ :: cs)
              (if d.amount - min c.amount d.amount < (0.01 : ℚ) then ds
                else ⟨d.id, d.amount - min c.amount d.amount⟩ :: ds) :=
  ⟨fun b p hwf =>
    ⟨resolveSettlements_eq b p hwf, classify_eq hwf,
      fun _ => mem_creditorsOf, fun _ => mem_debtorsOf,
      sortParties_sorted _, sortParties_sorted _,
      sortParties_perm _, sortParties_perm _⟩,
    resolveLoop_cons⟩

/-- Claim C7, witness: the decomposition instantiated on the concrete
mapping `balBig`. -/
theorem claim_C7_witness :
    resolveSettlements balBig []
      = resolveLoop (sortParties (creditorsOf balBig))
          (sortParties (debtorsOf balBig)) :=
  (claim_C7.1 balBig [] (by decide)).1

/-- Claim C8, confirmed: every iteration of the matching loop shrinks the
total length of the two working lists, because the `min` side's remaining
amount drops to `0 < 0.01` and is removed; consequently the loop equals
its fuel-indexed version whenever the fuel covers the total length, i.e.
it terminates. -/
theorem claim_C8 :
    (∀ (c : Party) (cs : List Party) (d : Party) (ds : List Party),
      ((if c.amount - min c.amount d.amount < (0.01 : ℚ) then cs
          else ⟨c.id, c.amount - min c.amount d.amount⟩ :: cs).length
        + (if d.amount - min c.amount d.amount < (0.01 : ℚ) then ds
            else ⟨d.id, d.amount - min c.amount d.amount⟩ :: ds).length
        < (c :: cs).length + (d :: ds).length) ∧
      (c.amount - min c.amount d.amount < (0.01 : ℚ) ∨
        d.amount - min c.amount d.amount < (0.01 : ℚ))) ∧
    ∀ (cs ds : List Party) (fuel : Nat), cs.length + ds.length ≤ fuel →
      resolveLoopFuel fuel cs ds = resolveLoop cs ds := by
  constructor
  · intro c cs d ds
    refine ⟨next_length_lt c cs d ds, ?_⟩
    rcases min_choice c.amount d.amount with h | h
    · left
      rw [h, sub_self]
      norm_num
    · right
      rw [h, sub_self]
      norm_num
  · intro cs ds fuel h
    exact resolveLoopFuel_eq fuel cs ds h

/-- Claim C8, witness: the fueled and unfueled loops agree on a concrete
one-creditor, one-debtor state with sufficient fuel. -/
theorem claim_C8_witness :
    resolveLoopFuel 2 [⟨"X", 5⟩] [⟨"Y", 5⟩]
      = resolveLoop [⟨"X", 5⟩] [⟨"Y", 5⟩] :=
  claim_C8.2 [⟨"X", 5⟩] [⟨"Y", 5⟩] 2 (by decide)

/-- Claim C9, confirmed: `resolveSettlements` leaves the `balances`
argument unchanged (every write in the source targets the spread copy's
derived records or the local settlements array), so calling it a second
time on the balances object as it stands after the first call yields the
same multiset of transfers. -/
theorem claim_C9 (balances : Obj) (persons : List Person) :
    (resolveSettlementsSt balances persons).2 = balances ∧
      Multiset.ofList
          (resolveSettlementsSt ((resolveSettlementsSt balances persons).2)
            persons).1
        = Multiset.ofList (resolveSettlementsSt balances persons).1 :=
  ⟨rfl, rfl⟩

/-- Claim C10, confirmed: a key is classified as creditor or debtor but
never both, and every emitted settlement pairs a debtor id with a creditor
id, so no settlement pays a person to themself. -/
theorem claim_C10 (balances : Obj) (persons : List Person) :
    ∀ s ∈ resolveSettlements balances persons, s.fromId ≠ s.toId := by
  intro s hs
  have hwfw : wfObj (jspread balances) := wf_jspread balances
  have hres : resolveSettlements balances persons
      = resolveLoop (sortParties (creditorsOf (jspread balances)))
          (sortParties (debtorsOf (jspread balances))) := by
    simp only [resolveSettlements]
    rw [classify_eq hwfw]
  rw [hres] at hs
  obtain ⟨hto, hfrom⟩ := loop_ids
    ((sortParties (creditorsOf (jspread balances))).length
      + (sortParties (debtorsOf (jspread balances))).length) _ _ le_rfl s hs
  obtain ⟨x, hxmem, hxid⟩ := List.mem_map.mp hto
  obtain ⟨y, hymem, hyid⟩ := List.mem_map.mp hfrom
  have hne := creditor_debtor_ne hwfw
    (mem_sortParties.mp hxmem) (mem_sortParties.mp hymem)
  intro hh
  exact hne (by rw [hxid, hyid, hh])

/-- Claim C2, counterexample: on `tripDrift` the rounded balances are
`X = 0.03`, `Y = -0.01` and six zeros; no debtor passes the `-0.01`
threshold, so `resolveSettlements` returns no settlements at all, and
applying them (in the claim's own wording) leaves X's balance at `0.03`,
not within `ε = 0.01` of 0. -/
theorem claim_C2_counterexample :
    jget (applySettlementsClaim
        (resolveSettlements (calculateBalances tripDrift) tripDrift.persons)
        (calculateBalances tripDrift)) "X" = some (JVal.num (3/100)) ∧
      ¬ |(3 : ℚ)/100| ≤ 0.01 := by
  constructor
  · rw [resolveDrift_eval,
      show applySettlementsClaim [] (calculateBalances tripDrift)
          = calculateBalances tripDrift from rfl,
      calcDrift_eval]
    simp only [jget, String.reduceEq, reduceIte]
  · rw [show |(3 : ℚ)/100| = 3/100 from abs_of_pos (by norm_num)]
    norm_num

/-- Claim C2, amended: the discharge guarantee fails as stated (rounding
drift and unrecorded sub-threshold payments can leave residuals above ε,
and the claim's application direction moves balances away from zero).
What does hold, for whole-cent balance mappings such as
`calculateBalances` produces: applying every settlement in the
discharging direction — add the amount to the `from` person's balance,
subtract it from the `to` person's — never overshoots: every final
balance lies weakly between 0 and the person's original balance. -/
theorem claim_C2_amended (balances : Obj) (persons : List Person)
    (hwf : wfObj balances) (hcent : centMult balances)
    (k : String) (v : ℚ) (hk : jget balances k = some (JVal.num v)) :
    ∃ w : ℚ,
      jget (applySettlements (resolveSettlements balances persons)
          balances) k = some (JVal.num w) ∧
        (0 ≤ v → 0 ≤ w ∧ w ≤ v) ∧ (v ≤ 0 → v ≤ w ∧ w ≤ 0) := by
  rw [resolveSettlements_eq _ _ hwf]
  set cs0 := sortParties (creditorsOf balances) with hcs0
  set ds0 := sortParties (debtorsOf balances) with hds0
  set S := resolveLoop cs0 ds0 with hS
  have hccA : ∀ x ∈ cs0, centQ x.amount ∧ 0 ≤ x.amount :=
    fun x hx => creditorsOf_amounts hcent x (mem_sortParties.mp hx)
  have hcdA : ∀ x ∈ ds0, centQ x.amount ∧ 0 ≤ x.amount :=
    fun x hx => debtorsOf_amounts hcent x (mem_sortParties.mp hx)
  have hamt : ∀ s ∈ S, (0.01 : ℚ) < s.amount :=
    fun s hs => (loop_amount_gt (cs0.length + ds0.length) _ _ le_rfl
      (fun x hx => (hccA x hx).1) (fun x hx => (hcdA x hx).1) s hs).1
  have hamt0 : ∀ s ∈ S, 0 ≤ s.amount :=
    fun s hs => le_of_lt (lt_trans (by norm_num) (hamt s hs))
  have hto_nonneg : 0 ≤ paidTo k S := paidTo_nonneg hamt0
  have hfrom_nonneg : 0 ≤ paidFrom k S := paidFrom_nonneg hamt0
  refine ⟨v + paidFrom k S - paidTo k S,
    jget_applySettlements S balances k v hk, ?_⟩
  by_cases hv1 : (0.01 : ℚ) < v
  · have hxc : (⟨k, v⟩ : Party) ∈ creditorsOf balances :=
      mem_creditorsOf.mpr ⟨v, mem_of_jget hk, hv1, rfl⟩
    have hto_le : paidTo k S ≤ v :=
      loop_paidTo_le (cs0.length + ds0.length) cs0 ds0 le_rfl
        (sortParties_ids_nodup (creditorsOf_ids_nodup hwf)) hccA hcdA
        ⟨k, v⟩ (mem_sortParties.mpr hxc)
    have hfrom0 : paidFrom k S = 0 := by
      apply paidFrom_eq_zero
      intro s hs hsk
      have hfrom := (loop_ids (cs0.length + ds0.length) _ _ le_rfl s hs).2
      obtain ⟨y, hy, hyid⟩ := List.mem_map.mp hfrom
      exact creditor_debtor_ne hwf hxc (mem_sortParties.mp hy)
        (hyid.trans hsk).symm
    rw [hfrom0]
    constructor
    · intro _
      constructor <;> linarith
    · intro hv0
      exact absurd hv0 (by linarith)
  · by_cases hv2 : v < -(0.01 : ℚ)
    · have hxd : (⟨k, |v|⟩ : Party) ∈ debtorsOf balances :=
        mem_debtorsOf.mpr ⟨v, mem_of_jget hk, hv2, rfl⟩
      have habs : |v| = -v := abs_of_neg (by linarith)
      have hfrom_le : paidFrom k S ≤ -v := by
        have hle := loop_paidFrom_le (cs0.length + ds0.length) cs0 ds0
          le_rfl (sortParties_ids_nodup (debtorsOf_ids_nodup hwf)) hccA
          hcdA ⟨k, |v|⟩ (mem_sortParties.mpr hxd)
        rw [show (⟨k, |v|⟩ : Party).amount = |v| from rfl, habs] at hle
        exact hle
      have hto0 : paidTo k S = 0 := by
        apply paidTo_eq_zero
        intro s hs hsk
        have hto := (loop_ids (cs0.length + ds0.length) _ _ le_rfl s hs).1
        obtain ⟨y, hy, hyid⟩ := List.mem_map.mp hto
        exact creditor_debtor_ne hwf (mem_sortParties.mp hy) hxd
          (hyid.trans hsk)
      rw [hto0]
      constructor
      · intro h0
        exact absurd h0 (by linarith)
      · intro _
        constructor <;> linarith
    · have hto0 : paidTo k S = 0 := by
        apply paidTo_eq_zero
        intro s hs hsk
        have hto := (loop_ids (cs0.length + ds0.length) _ _ le_rfl s hs).1
        obtain ⟨y, hy, hyid⟩ := List.mem_map.mp hto
        obtain ⟨q, hqmem, hq, _⟩ :=
          mem_creditorsOf.mp (mem_sortParties.mp hy)
        have hkq : jget balances y.id = some (JVal.num q) :=
          jget_eq_of_mem hwf hqmem
        rw [hyid, hsk, hk] at hkq
        injection hkq with h
        injection h with h
        exact hv1 (h ▸ hq)
      have hfrom0 : paidFrom k S = 0 := by
        apply paidFrom_eq_zero
        intro s hs hsk
        have hfrom := (loop_ids (cs0.length + ds0.length) _ _
          le_rfl s hs).2
        obtain ⟨y, hy, hyid⟩ := List.mem_map.mp hfrom
        obtain ⟨q, hqmem, hq, _⟩ :=
          mem_debtorsOf.mp (mem_sortParties.mp hy)
        have hkq : jget balances y.id = some (JVal.num q) :=
          jget_eq_of_mem hwf hqmem
        rw [hyid, hsk, hk] at hkq
        injection hkq with h
        injection h with h
        exact hv2 (h ▸ hq)
      rw [hto0, hfrom0]
      constructor
      · intro _
        constructor <;> linarith
      · intro _
        constructor <;> linarith

/-- Claim C2, witness: the amended no-overshoot bound applied to the
whole-cent mapping `balCent` at the creditor "X". -/
theorem claim_C2_witness :
    ∃ w : ℚ,
      jget (applySettlements (resolveSettlements balCent []) balCent) "X"
        = some (JVal.num w) ∧
        (0 ≤ (5 : ℚ)/100 → 0 ≤ w ∧ w ≤ (5 : ℚ)/100) ∧
        ((5 : ℚ)/100 ≤ 0 → (5 : ℚ)/100 ≤ w ∧ w ≤ 0) :=
  claim_C2_amended balCent [] (by decide)
    (by
      intro kv hkv
      simp only [balCent, List.mem_cons] at hkv
      rcases hkv with h | h | h
      · rw [h]
        exact (centQ_iff _).mpr ⟨5, by norm_num⟩
      · rw [h]
        exact (centQ_iff _).mpr ⟨-5, by norm_num⟩
      · exact absurd h (List.not_mem_nil kv))
    "X" ((5 : ℚ)/100) rfl

/-- Claim C10, witness: the single settlement of `balBig` pays from "Y" to
"X", two distinct ids. -/
theorem claim_C10_witness :
    ("Y" : String) ≠ "X" ∧
      (⟨"Y", "X", 5⟩ : Settlement) ∈ resolveSettlements balBig [] := by
  have hmem : (⟨"Y", "X", 5⟩ : Settlement)
      ∈ resolveSettlements balBig [] := by
    rw [resolveBig_eval]
    exact List.mem_singleton.mpr rfl
  exact ⟨claim_C10 balBig [] _ hmem, hmem⟩

end TripSplit
